import Mathlib

/-!
Verification development for the MathEngine symbolic algebra core
(`src/number.rs`, `src/equation.rs`, `src/math.rs`).

The Rust code is shallowly embedded:

* `Number` mirrors the tagged union over rug `Integer` / `Rational` /
  `Float`.  Arbitrary-precision integers and rationals are `ℤ` and `ℚ`
  (rug rationals are auto-reduced, as is Lean's `ℚ`).  A rug `Float`
  is modelled as `Option ℚ`: `some q` is a finite float holding the
  exact value `q`, `none` is NaN.  This idealises the 100-bit working
  precision (float arithmetic is modelled exactly); every theorem below
  that depends on float values only uses values that a 100-bit binary
  float represents exactly, and transcendental float power (rug
  `Float::pow` on non-integer exponents) is modelled as NaN and is not
  relied upon by any theorem.
* Rust panics (rug division of exact types by zero, `todo!()`,
  `Option::unwrap` on `None`) are modelled as error results
  (`Option.none` / `Fault.panicked`), never as values.
* The simplifier's recursion is not structurally decreasing in the Rust
  source (e.g. `Sub` rebuilds an `Add` and re-simplifies it), so it is
  embedded with an explicit fuel parameter; running out of fuel is the
  distinct error `Fault.starved`.  Any run that returns `.ok t` is a
  faithful reproduction of the (terminating) Rust computation.
* `std::collections::HashMap` has unspecified iteration order; it is
  modelled as an insertion-ordered association list (`remove` followed
  by `insert` re-inserts at the end, matching the code's remove/insert
  sequences deterministically).
-/

namespace MathEngine

/-- Model of `Number` (src/number.rs): tagged union of arbitrary-precision
integer, auto-reduced rational and binary float; the float payload is
`some q` for a finite float of exact value `q`, `none` for NaN. -/
inductive Number where
  | int (z : ℤ)
  | rat (q : ℚ)
  | float (f : Option ℚ)
deriving DecidableEq, Repr

namespace Number

/-- The exact numeric value carried by a `Number`; `none` for a NaN float.
Used only in specifications (the code compares representations exactly). -/
def value : Number → Option ℚ
  | .int z => some (z : ℚ)
  | .rat q => some q
  | .float f => f

/-- Whether the `Number` is a float NaN. -/
def isNaN : Number → Bool
  | .float none => true
  | _ => false

end Number

/-- Exact three-way comparison of rationals, the behaviour of rug's exact
`partial_cmp` on comparable values. -/
def cmpQ (x y : ℚ) : Ordering := if x < y then .lt else if x = y then .eq else .gt

/-- Exact three-way comparison of integers (rug `Integer` vs `Integer`). -/
def cmpZ (x y : ℤ) : Ordering := if x < y then .lt else if x = y then .eq else .gt

/-- Model of `impl PartialOrd for Number` (src/number.rs lines 200-220):
nine tag branches, each an exact cross-representation comparison; any
branch touching a NaN float yields `None`. -/
def pcmpN : Number → Number → Option Ordering
  | .int a, .int b => some (cmpZ a b)
  | .int a, .rat q => some (cmpQ (a : ℚ) q)
  | .int a, .float f => match f with
      | some y => some (cmpQ (a : ℚ) y)
      | none => none
  | .rat p, .int b => some (cmpQ p (b : ℚ))
  | .rat p, .rat q => some (cmpQ p q)
  | .rat p, .float f => match f with
      | some y => some (cmpQ p y)
      | none => none
  | .float f, .int b => match f with
      | some x => some (cmpQ x (b : ℚ))
      | none => none
  | .float f, .rat q => match f with
      | some x => some (cmpQ x q)
      | none => none
  | .float f, .float g => match f, g with
      | some x, some y => some (cmpQ x y)
      | _, _ => none

/-- Model of `impl Ord for Number` (src/number.rs lines 222-226):
`self.partial_cmp(other).unwrap()`; the `None` result models the panic of
`unwrap`. -/
def ordCmpN (a b : Number) : Option Ordering := pcmpN a b

/-- Rust `PartialOrd::lt` on `Number`: true exactly when `partial_cmp`
returns `Some(Less)`. -/
def ltN (a b : Number) : Bool := pcmpN a b == some Ordering.lt

/-- Model of `impl PartialEq for Number` (src/number.rs lines 176-196):
nine tag branches of exact cross-representation equality; a NaN float is
equal to nothing. -/
def numEq : Number → Number → Bool
  | .int a, .int b => decide (a = b)
  | .int a, .rat q => decide ((a : ℚ) = q)
  | .int a, .float f => match f with
      | some y => decide ((a : ℚ) = y)
      | none => false
  | .rat p, .int b => decide (p = (b : ℚ))
  | .rat p, .rat q => decide (p = q)
  | .rat p, .float f => match f with
      | some y => decide (p = y)
      | none => false
  | .float f, .int b => match f with
      | some x => decide (x = (b : ℚ))
      | none => false
  | .float f, .rat q => match f with
      | some x => decide (x = q)
      | none => false
  | .float f, .float g => match f, g with
      | some x, some y => decide (x = y)
      | _, _ => false

/-- Float addition (exact model of rug `Float + Float`; NaN propagates). -/
def fAdd : Option ℚ → Option ℚ → Option ℚ
  | some a, some b => some (a + b)
  | _, _ => none

/-- Float subtraction. -/
def fSub : Option ℚ → Option ℚ → Option ℚ
  | some a, some b => some (a - b)
  | _, _ => none

/-- Float multiplication. -/
def fMul : Option ℚ → Option ℚ → Option ℚ
  | some a, some b => some (a * b)
  | _, _ => none

/-- Float division.  Division by a zero float yields an infinity in rug;
infinities are outside this model and are conflated with NaN (`none`).
No theorem below depends on this branch. -/
def fDiv : Option ℚ → Option ℚ → Option ℚ
  | some a, some b => if b = 0 then none else some (a / b)
  | _, _ => none

/-- Float negation. -/
def fNeg : Option ℚ → Option ℚ
  | some a => some (-a)
  | none => none

/-- Model of `impl Add<Number> for Number` (by value; the by-reference
impl has the same nine branches): promotion Integer < Rational < Float. -/
def addN : Number → Number → Number
  | .int a, .int b => .int (a + b)
  | .int a, .rat q => .rat ((a : ℚ) + q)
  | .int a, .float f => .float (fAdd (some (a : ℚ)) f)
  | .rat p, .float f => .float (fAdd (some p) f)
  | .rat p, .int b => .rat (p + (b : ℚ))
  | .rat p, .rat q => .rat (p + q)
  | .float f, .int b => .float (fAdd f (some (b : ℚ)))
  | .float f, .rat q => .float (fAdd f (some q))
  | .float f, .float g => .float (fAdd f g)

/-- Model of `impl Sub<Number> for Number` (by value). -/
def subN : Number → Number → Number
  | .int a, .int b => .int (a - b)
  | .int a, .rat q => .rat ((a : ℚ) - q)
  | .int a, .float f => .float (fSub (some (a : ℚ)) f)
  | .rat p, .float f => .float (fSub (some p) f)
  | .rat p, .int b => .rat (p - (b : ℚ))
  | .rat p, .rat q => .rat (p - q)
  | .float f, .int b => .float (fSub f (some (b : ℚ)))
  | .float f, .rat q => .float (fSub f (some q))
  | .float f, .float g => .float (fSub f g)

/-- Model of `impl Mul<Number> for Number` (by value). -/
def mulN : Number → Number → Number
  | .int a, .int b => .int (a * b)
  | .int a, .rat q => .rat ((a : ℚ) * q)
  | .int a, .float f => .float (fMul (some (a : ℚ)) f)
  | .rat p, .float f => .float (fMul (some p) f)
  | .rat p, .int b => .rat (p * (b : ℚ))
  | .rat p, .rat q => .rat (p * q)
  | .float f, .int b => .float (fMul f (some (b : ℚ)))
  | .float f, .rat q => .float (fMul f (some q))
  | .float f, .float g => .float (fMul f g)

/-- Model of `impl Neg for Number`. -/
def negN : Number → Number
  | .int a => .int (-a)
  | .rat p => .rat (-p)
  | .float f => .float (fNeg f)

/-- Model of `impl Div<Number> for Number` (by value, src/number.rs lines
408-432).  `Integer / Integer` builds `Rational::from((lhs, rhs))`, which
panics (here `none`) when the denominator is zero; rug division of exact
types by exact zero also panics. -/
def divN : Number → Number → Option Number
  | .int a, .int b => if b = 0 then none else some (.rat (Rat.divInt a b))
  | .int a, .rat q => if q = 0 then none else some (.rat ((a : ℚ) / q))
  | .int a, .float f => some (.float (fDiv (some (a : ℚ)) f))
  | .rat p, .float f => some (.float (fDiv (some p) f))
  | .rat p, .int b => if b = 0 then none else some (.rat (p / (b : ℚ)))
  | .rat p, .rat q => if q = 0 then none else some (.rat (p / q))
  | .float f, .int b => some (.float (fDiv f (some (b : ℚ))))
  | .float f, .rat q => some (.float (fDiv f (some q)))
  | .float f, .float g => some (.float (fDiv f g))

/-- Model of `impl Div<&Number> for &Number` (by reference, src/number.rs
lines 300-322).  Unlike the by-value impl, `Integer / Integer` is rug
`Integer` division, i.e. TRUNCATION toward zero (`Int.tdiv`); zero
denominators on exact types panic. -/
def refDivN : Number → Number → Option Number
  | .int a, .int b => if b = 0 then none else some (.int (Int.tdiv a b))
  | .int a, .rat q => if q = 0 then none else some (.rat ((a : ℚ) / q))
  | .int a, .float f => some (.float (fDiv (some (a : ℚ)) f))
  | .rat p, .float f => some (.float (fDiv (some p) f))
  | .rat p, .int b => if b = 0 then none else some (.rat (p / (b : ℚ)))
  | .rat p, .rat q => if q = 0 then none else some (.rat (p / q))
  | .float f, .int b => some (.float (fDiv f (some (b : ℚ))))
  | .float f, .rat q => some (.float (fDiv f (some q)))
  | .float f, .float g => some (.float (fDiv f g))

/-- The loop of `Number::pow_integer` (src/number.rs lines 59-67):
`result` starts at `base` and is multiplied `k` more times. -/
def powIntegerAux (b : ℤ) : Nat → ℤ
  | 0 => b
  | k + 1 => powIntegerAux b k * b

/-- Model of `Number::pow_integer`: `result = base; count = 1;
while count < exponent { result *= base; count += 1 }`.  The loop body
runs `(exponent - 1).toNat` times, so exponents `≤ 1` (including 0 and
negatives) return the base unchanged. -/
def powIntegerN (b e : ℤ) : Number := .int (powIntegerAux b (e - 1).toNat)

/-- The loop of `Number::pow_rational`. -/
def powRatAux (b : ℚ) : Nat → ℚ
  | 0 => b
  | k + 1 => powRatAux b k * b

/-- Model of `Number::pow_rational`: same loop shape as `pow_integer`. -/
def powRationalN (b : ℚ) (e : ℤ) : Number := .rat (powRatAux b (e - 1).toNat)

/-- Model of `Number::pow_float` (rug `Float::pow`).  Exact on integer
exponents of nonzero bases; all other cases (transcendental powers,
`0^negative`) are approximate or infinite in rug and are modelled as NaN.
No theorem below depends on those cases. -/
def powFloatQ : Option ℚ → Option ℚ → Option ℚ
  | some b, some e =>
      if e.den = 1 then
        if b = 0 ∧ e.num < 0 then none else some (b ^ e.num)
      else none
  | _, _ => none

/-- Model of `Number::pow` (src/number.rs lines 16-57): dispatch on the
two tags, with `is_integer` checks (`den = 1`) on rational operands. -/
def powN : Number → Number → Number
  | .int b, .int e => powIntegerN b e
  | .int b, .rat e =>
      if e.den = 1 then powIntegerN b e.num
      else .float (powFloatQ (some (b : ℚ)) (some e))
  | .int b, .float f => .float (powFloatQ (some (b : ℚ)) f)
  | .rat b, .int e =>
      if b.den = 1 then powIntegerN b.num e else powRationalN b e
  | .rat b, .rat e =>
      if b.den = 1 ∧ e.den = 1 then powIntegerN b.num e.num
      else .float (powFloatQ (some b) (some e))
  | .rat b, .float f => .float (powFloatQ (some b) f)
  | .float f, .int e => .float (powFloatQ f (some (e : ℚ)))
  | .float f, .rat q => .float (powFloatQ f (some q))
  | .float f, .float g => .float (powFloatQ f g)

theorem cmpZ_cast (a b : ℤ) : cmpZ a b = cmpQ (a : ℚ) (b : ℚ) := by
  unfold cmpZ cmpQ
  by_cases h1 : a < b
  · simp [h1, show (a : ℚ) < (b : ℚ) from by exact_mod_cast h1]
  · by_cases h2 : a = b
    · subst h2; simp
    · have h1' : ¬ ((a : ℚ) < (b : ℚ)) := by exact_mod_cast h1
      have h2' : ¬ ((a : ℚ) = (b : ℚ)) := by exact_mod_cast h2
      simp [h1, h2, h1', h2']

/-- C10: `Ord::cmp` on `Number` panics (returns `none` in the model,
because it unwraps `partial_cmp`) exactly when one operand is a float NaN;
on all other operands it returns the exact cross-representation ordering
of the carried values. -/
theorem cmp_panics_iff_nan : ∀ a b : Number,
    (ordCmpN a b = none ↔ (a.isNaN = true ∨ b.isNaN = true)) ∧
    (∀ x y : ℚ, a.value = some x → b.value = some y →
      ordCmpN a b = some (cmpQ x y)) := by
  intro a b
  rcases a with za | qa | (_ | fa) <;> rcases b with zb | qb | (_ | fb) <;>
    simp only [ordCmpN, pcmpN, Number.isNaN, Number.value] <;>
    refine ⟨by simp, ?_⟩ <;>
    intro x y hx hy <;>
    simp_all [cmpZ_cast]

/-- Witness for C10 at concrete inputs. -/
theorem cmp_panics_iff_nan_witness :
    ordCmpN (.int 1) (.rat ((3 : ℚ) / 2)) = some (cmpQ 1 ((3 : ℚ) / 2)) ∧
    ordCmpN (.float none) (.int 0) = none := by
  constructor
  · exact (cmp_panics_iff_nan (.int 1) (.rat ((3 : ℚ) / 2))).2 1 ((3 : ℚ) / 2) rfl rfl
  · exact (cmp_panics_iff_nan (.float none) (.int 0)).1.mpr (Or.inl rfl)

/-- C4 counterexample: the by-reference `Div` impl on two Integer Numbers
(src/number.rs line 306) performs truncating integer division: `5 / 2`
yields `Integer 2`, not an exact rational, and `2` is not equal (under
cross-representation equality) to `Number::from(2.5)` (the float holding
exactly 5/2).  So Number division of two Integers does NOT always yield
an exact Rational. -/
theorem ref_int_div_truncates :
    refDivN (.int 5) (.int 2) = some (.int 2) ∧
    numEq (.int 2) (.float (some ((5 : ℚ) / 2))) = false ∧
    numEq (.int 2) (.rat ((5 : ℚ) / 2)) = false := by
  refine ⟨rfl, ?_, ?_⟩ <;> · simp only [numEq, decide_eq_false_iff_not]; norm_num

/-- C4 (amended): BY-VALUE division of two Integer Numbers always yields
the exact Rational quotient (never truncates): the resulting rational
times the divisor recovers the dividend; and `Number::from(5) /
Number::from(2)` equals `Number::from(2.5)` under cross-representation
equality.  The by-reference impl instead truncates (see the
counterexample). -/
theorem int_div_exact : ∀ a b : ℤ, b ≠ 0 →
    divN (.int a) (.int b) = some (.rat ((a : ℚ) / (b : ℚ))) ∧
    ((a : ℚ) / (b : ℚ)) * (b : ℚ) = (a : ℚ) ∧
    numEq (.rat ((5 : ℚ) / 2)) (.float (some ((5 : ℚ) / 2))) = true := by
  intro a b hb
  have hbq : (b : ℚ) ≠ 0 := by exact_mod_cast hb
  refine ⟨?_, div_mul_cancel₀ _ hbq, by simp [numEq]⟩
  simp [divN, hb, Rat.divInt_eq_div]

/-- Witness for C4 at the spec's concrete input 5 / 2. -/
theorem int_div_exact_witness :
    divN (.int 5) (.int 2) = some (.rat ((5 : ℚ) / (2 : ℚ))) :=
  (int_div_exact 5 2 (by decide)).1

/-- C6 (bug evaluation): `Number::pow` with Integer base 2 and Integer
exponent 0 returns Integer 2, not 1: `pow_integer` initialises its
accumulator to the base and its loop never runs for exponents below 1.
The sibling helper `powi64` in src/math.rs initialises to 1 and correctly
returns 1 on exponent 0, so the code is internally inconsistent. -/
theorem pow_zero_exponent_returns_base :
    powN (.int 2) (.int 0) = .int 2 ∧ Number.int 2 ≠ Number.int 1 := by
  exact ⟨rfl, by decide⟩

/-! ## The expression tree and the simplifier -/

/-- Model of `EquationComponentType` (src/equation.rs lines 10-39). -/
inductive ECT where
  | const (n : Number)
  | var (c : Char)
  | add (lhs rhs : ECT)
  | sub (lhs rhs : ECT)
  | mul (lhs rhs : ECT)
  | div (numerator denominator : ECT)
  | pow (base exponent : ECT)
  | log (base argument : ECT)
  | minus (value : ECT)
deriving DecidableEq, Repr

/-- Failure modes of an embedded run: `panicked` models a Rust panic
(rug zero division, `todo!()`, `unwrap` of `None`); `starved` is the fuel
artifact of the embedding (the Rust recursion is not structurally
decreasing).  A `.ok` result is a faithful terminating Rust run. -/
inductive Fault where
  | panicked
  | starved
deriving DecidableEq, Repr

/-- Result of an embedded fallible computation. -/
abbrev Res (α : Type) := Except Fault α

/-- The three vectors threaded through `extract` (variables, constants,
remaining nodes), each appended to at the end like `Vec::push`. -/
structure ExSt where
  vars : List Char
  consts : List Number
  others : List ECT
deriving DecidableEq, Repr

/-- One `get`/`insert` step of the `HashMap<char, i64>` occurrence count
(insertion-ordered model: overwriting keeps the position, new keys are
appended). -/
def bumpVar : List (Char × ℤ) → Char → List (Char × ℤ)
  | [], c => [(c, 1)]
  | (k, n) :: rest, c =>
      if k = c then (k, n + 1) :: rest else (k, n) :: bumpVar rest c

/-- `for i in variables { ... }`: count occurrences per variable letter. -/
def countMap (vs : List Char) : List (Char × ℤ) := vs.foldl bumpVar []

/-- AddNode phase 1: a count above 1 becomes `Mul(Variable, Constant)`. -/
def addPhase1 (occ : List (Char × ℤ)) : List ECT :=
  occ.map fun p => if 1 < p.2 then .mul (.var p.1) (.const (.int p.2)) else .var p.1

/-- MulNode phase 1: a count above 1 becomes `Pow(Variable, Constant)`. -/
def mulPhase1 (occ : List (Char × ℤ)) : List ECT :=
  occ.map fun p => if 1 < p.2 then .pow (.var p.1) (.const (.int p.2)) else .var p.1

/-- `HashMap::remove`: returns the removed value (if any) and the rest. -/
def removeKey : List (Char × Number) → Char → Option Number × List (Char × Number)
  | [], _ => (none, [])
  | (k, n) :: rest, c =>
      if k = c then (some n, rest)
      else
        let (o, r) := removeKey rest c
        (o, (k, n) :: r)

/-- `match map.remove(&v) { Some(o) => insert(v, o + c), None => insert(v, c) }`
(the values stored are always `ConstantNode`s, so the map carries `Number`s). -/
def mergeCoef (m : List (Char × Number)) (c : Char) (v : Number) : List (Char × Number) :=
  match removeKey m c with
  | (some o, m') => m' ++ [(c, addN o v)]
  | (none, m') => m' ++ [(c, v)]

/-- The `MinusNode(VariableNode)` case of the AddNode collection:
`Some(o) => insert(v, o - 1), None => insert(v, Number::from(-1))`. -/
def mergeNeg (m : List (Char × Number)) (c : Char) : List (Char × Number) :=
  match removeKey m c with
  | (some o, m') => m' ++ [(c, subN o (.int 1))]
  | (none, m') => m' ++ [(c, .int (-1))]

/-- The `variables_nodes.retain(...)` pass of the AddNode branch
(src/equation.rs lines 148-229): coefficient patterns are merged into the
map and dropped, everything else is kept in order. -/
def addRetain : List ECT → List ECT → List (Char × Number) → List ECT × List (Char × Number)
  | [], kept, m => (kept, m)
  | x :: rest, kept, m =>
      match x with
      | .mul (.var v) (.const c) => addRetain rest kept (mergeCoef m v c)
      | .mul (.const c) (.var v) => addRetain rest kept (mergeCoef m v c)
      | .var v => addRetain rest kept (mergeCoef m v (.int 1))
      | .minus (.var v) => addRetain rest kept (mergeNeg m v)
      | x => addRetain rest (kept ++ [x]) m

/-- Re-emission of the merged AddNode coefficients (lines 231-242):
coefficient 1 renders back to the bare variable. -/
def addReinsert (m : List (Char × Number)) : List ECT :=
  m.map fun p =>
    if numEq p.2 (.int 1) then ECT.var p.1 else .mul (.var p.1) (.const p.2)

/-- The `retain` pass of the MulNode branch (lines 354-396): only
`Pow(Variable, Constant)` and bare `Variable` are merged. -/
def mulRetain : List ECT → List ECT → List (Char × Number) → List ECT × List (Char × Number)
  | [], kept, m => (kept, m)
  | x :: rest, kept, m =>
      match x with
      | .pow (.var v) (.const c) => mulRetain rest kept (mergeCoef m v c)
      | .var v => mulRetain rest kept (mergeCoef m v (.int 1))
      | x => mulRetain rest (kept ++ [x]) m

/-- Re-emission of the merged MulNode exponents (lines 398-409). -/
def mulReinsert (m : List (Char × Number)) : List ECT :=
  m.map fun p =>
    if numEq p.2 (.int 1) then ECT.var p.1 else .pow (.var p.1) (.const p.2)

/-- The chain rebuild of the AddNode branch for two or more nodes (lines
263-278): the base node takes the LAST element as lhs and the second-last
as rhs (two `pop`s), then the remaining elements are prepended in order —
so the last two list elements come out swapped. -/
def rebuildAdd : List ECT → ECT
  | [] => .const (.int 0)
  | [x] => x
  | [x, y] => .add y x
  | x :: rest => .add x (rebuildAdd rest)

/-- The chain rebuild of the MulNode branch (lines 429-444). -/
def rebuildMul : List ECT → ECT
  | [] => .const (.int 0)
  | [x] => x
  | [x, y] => .mul y x
  | x :: rest => .mul x (rebuildMul rest)

/-- The `x^1` test of the PowNode branch (lines 491-495). -/
def isConstOne : ECT → Bool
  | .const i => numEq i (.int 1)
  | _ => false

mutual

/-- Model of `EquationComponentType::simplify` (src/equation.rs lines
88-585), with explicit fuel (first argument) standing in for the
non-structural Rust recursion. -/
def simplifyF : Nat → ECT → Res ECT
  | 0, _ => .error .starved
  | _ + 1, .const i => .ok (.const i)
  | _ + 1, .var i => .ok (.var i)
  | n + 1, .add l r => do
      let st ← extractAddF n (.add l r) ⟨[], [], []⟩
      let constant := st.consts.foldl addN (.int 0)
      let constantIsZero := numEq constant (.int 0)
      let nodesAll := addPhase1 (countMap st.vars) ++ st.others
      let (kept, m) := addRetain nodesAll [] []
      match kept ++ addReinsert m with
      | [] => .ok (.const constant)
      | [t] => do
          let t' ← simplifyF n t
          if constantIsZero then .ok t'
          else .ok (.add (.const constant) t')
      | ts => do
          let ts' ← simplifyListF n ts
          if constantIsZero then .ok (rebuildAdd ts')
          else .ok (.add (.const constant) (rebuildAdd ts'))
  | n + 1, .sub l r => do
      let ls ← simplifyF n l
      let rs ← simplifyF n r
      let ms ← simplifyF n (.minus rs)
      simplifyF n (.add ls ms)
  | n + 1, .mul l r => do
      let st ← extractMulF n (.mul l r) ⟨[], [], []⟩
      let constant := st.consts.foldl mulN (.int 1)
      if numEq constant (.int 0) then .ok (.const (.int 0))
      else
        let constantIsOne := numEq constant (.int 1)
        let nodesAll := mulPhase1 (countMap st.vars) ++ st.others
        let (kept, m) := mulRetain nodesAll [] []
        match kept ++ mulReinsert m with
        | [] => .ok (.const constant)
        | [t] => do
            let t' ← simplifyF n t
            if constantIsOne then .ok t'
            else .ok (.mul (.const constant) t')
        | ts => do
            let ts' ← simplifyListF n ts
            if constantIsOne then .ok (rebuildMul ts')
            else .ok (.mul (.const constant) (rebuildMul ts'))
  | n + 1, .div a b => do
      let na ← simplifyF n a
      let nd ← simplifyF n b
      match na, nd with
      | .const i, .const j =>
          match divN i j with
          | some r => .ok (.const r)
          | none => .error .panicked
      | .const i, nd => .ok (.div (.const i) nd)
      | na, nd => .ok (.div na nd)
  | n + 1, .pow b e => do
      let b' ← simplifyF n b
      let e' ← simplifyF n e
      if isConstOne e' then simplifyF n b'
      else
        match b', e' with
        | .pow lv rv, e' => .ok (.pow lv (.mul rv e'))
        | .const i, .const j => .ok (.const (powN i j))
        | .const i, e' => .ok (.pow (.const i) e')
        | b', e' => .ok (.pow b' e')
  | n + 1, .log b a => do
      let b' ← simplifyF n b
      let a' ← simplifyF n a
      .ok (.log b' a')
  | n + 1, .minus v => do
      let v' ← simplifyF n v
      match v' with
      | .const i => .ok (.const (negN i))
      | .add l r => simplifyF n (.add (.minus l) (.minus r))
      | .sub l r => simplifyF n (.sub (.minus l) (.minus r))
      | .mul l r => simplifyF n (.mul (.minus l) r)
      | .div a b => simplifyF n (.div (.minus a) b)
      | .minus i => .ok i
      | v' => do
          let v'' ← simplifyF n v'
          .ok (.minus v'')

/-- Element-wise simplification of the rebuilt chain's nodes (`.pop()
.unwrap().simplify()` in the rebuild loops). -/
def simplifyListF : Nat → List ECT → Res (List ECT)
  | 0, _ => .error .starved
  | _ + 1, [] => .ok []
  | n + 1, x :: xs => do
      let x' ← simplifyF n x
      let xs' ← simplifyListF n xs
      .ok (x' :: xs')

/-- Model of `EquationComponentType::extract` for AddNode (src/equation.rs
lines 785-823): both children are classified in order. -/
def extractAddF : Nat → ECT → ExSt → Res ExSt
  | 0, _, _ => .error .starved
  | n + 1, .add l r, st => do
      let st1 ← extractAddChildF n l st
      extractAddChildF n r st1
  | _ + 1, _, st => .ok st

/-- One child of the AddNode `extract`: constants and variables are
pushed directly, Add chains are flattened recursively, anything else is
simplified first and then re-classified. -/
def extractAddChildF : Nat → ECT → ExSt → Res ExSt
  | 0, _, _ => .error .starved
  | _ + 1, .const i, st => .ok { st with consts := st.consts ++ [i] }
  | _ + 1, .var i, st => .ok { st with vars := st.vars ++ [i] }
  | n + 1, .add l r, st => extractAddF n (.add l r) st
  | n + 1, c, st => do
      let m ← simplifyF n c
      match m with
      | .const i => .ok { st with consts := st.consts ++ [i] }
      | .var i => .ok { st with vars := st.vars ++ [i] }
      | .add l r => extractAddF n (.add l r) st
      | m => .ok { st with others := st.others ++ [m] }

/-- Model of `extract` for MulNode (lines 825-865). -/
def extractMulF : Nat → ECT → ExSt → Res ExSt
  | 0, _, _ => .error .starved
  | n + 1, .mul l r, st => do
      let st1 ← extractMulChildF n l st
      extractMulChildF n r st1
  | _ + 1, _, st => .ok st

/-- One child of the MulNode `extract`. -/
def extractMulChildF : Nat → ECT → ExSt → Res ExSt
  | 0, _, _ => .error .starved
  | _ + 1, .const i, st => .ok { st with consts := st.consts ++ [i] }
  | _ + 1, .var i, st => .ok { st with vars := st.vars ++ [i] }
  | n + 1, .mul l r, st => extractMulF n (.mul l r) st
  | n + 1, c, st => do
      let m ← simplifyF n c
      match m with
      | .const i => .ok { st with consts := st.consts ++ [i] }
      | .var i => .ok { st with vars := st.vars ++ [i] }
      | .mul l r => extractMulF n (.mul l r) st
      | m => .ok { st with others := st.others ++ [m] }

end

/-- C1 counterexample: `simplify` is NOT structurally idempotent.  For
`e = x + y` the rebuild of the additive chain swaps the two terms
(`base_node` takes the last popped element as `lhs`), so `simplify(e)`
is `y + x` while `simplify(simplify(e))` is `x + y` again — two
structurally different trees.  (With the real `HashMap` the term order is
additionally nondeterministic; the embedding fixes insertion order.) -/
theorem simplify_not_idempotent :
    simplifyF 30 (.add (.var 'x') (.var 'y')) = .ok (.add (.var 'y') (.var 'x')) ∧
    simplifyF 30 (.add (.var 'y') (.var 'x')) = .ok (.add (.var 'x') (.var 'y')) ∧
    ECT.add (.var 'x') (.var 'y') ≠ ECT.add (.var 'y') (.var 'x') := by
  refine ⟨rfl, rfl, by decide⟩

/-- C1 (amended): `simplify` is idempotent on every expression whose
simplified form is a single atom — a constant or a bare variable
(`simplify` is the identity on its own output there); on multi-term
chains re-simplification permutes the top-level terms (the rebuild swaps
the last two), so structural idempotence fails in general. -/
theorem simplify_idempotent_on_atoms :
    ∀ (n : Nat) (e t : ECT), simplifyF (n + 1) e = .ok t →
      ((∃ c, t = ECT.const c) ∨ (∃ v, t = ECT.var v)) →
      simplifyF (n + 1) t = .ok t := by
  intro n e t _ h
  rcases h with ⟨c, rfl⟩ | ⟨v, rfl⟩ <;> rfl

/-- Witness for C1's amended theorem at a concrete input. -/
theorem simplify_idempotent_on_atoms_witness :
    simplifyF 1 (ECT.const (.int 5)) = .ok (ECT.const (.int 5)) :=
  simplify_idempotent_on_atoms 0 (.const (.int 5)) (.const (.int 5)) rfl
    (Or.inl ⟨.int 5, rfl⟩)

/-- C2: like-term collection, each pair evaluated to the same tree:
`simplify(x + x + x) == simplify(3*x)` (both `3 * x`);
`simplify(3*x + x*5) == simplify(8*x)` (both `8 * x`);
`simplify(x*x*x) == simplify(x^3)` (both `x ^ 3`);
`simplify(x^3 * x) == simplify(x^4)` (both `x ^ 4`);
and a merged coefficient of 1 renders back to the bare variable
(`3*x + x*(-2)` simplifies to `x`). -/
theorem simplify_collects_like_terms :
    (simplifyF 30 (.add (.add (.var 'x') (.var 'x')) (.var 'x')) =
        .ok (.mul (.const (.int 3)) (.var 'x')) ∧
      simplifyF 30 (.mul (.const (.int 3)) (.var 'x')) =
        .ok (.mul (.const (.int 3)) (.var 'x'))) ∧
    (simplifyF 30 (.add (.mul (.const (.int 3)) (.var 'x'))
          (.mul (.var 'x') (.const (.int 5)))) =
        .ok (.mul (.const (.int 8)) (.var 'x')) ∧
      simplifyF 30 (.mul (.const (.int 8)) (.var 'x')) =
        .ok (.mul (.const (.int 8)) (.var 'x'))) ∧
    (simplifyF 30 (.mul (.mul (.var 'x') (.var 'x')) (.var 'x')) =
        .ok (.pow (.var 'x') (.const (.int 3))) ∧
      simplifyF 30 (.pow (.var 'x') (.const (.int 3))) =
        .ok (.pow (.var 'x') (.const (.int 3)))) ∧
    (simplifyF 30 (.mul (.pow (.var 'x') (.const (.int 3))) (.var 'x')) =
        .ok (.pow (.var 'x') (.const (.int 4))) ∧
      simplifyF 30 (.pow (.var 'x') (.const (.int 4))) =
        .ok (.pow (.var 'x') (.const (.int 4)))) ∧
    simplifyF 30 (.add (.mul (.const (.int 3)) (.var 'x'))
        (.mul (.var 'x') (.const (.int (-2))))) =
      .ok (.var 'x') := by
  exact ⟨⟨rfl, rfl⟩, ⟨rfl, rfl⟩, ⟨rfl, rfl⟩, ⟨rfl, rfl⟩, rfl⟩

/-- C7 counterexample: simplifying `(x^y)^z` yields `x ^ (y * z)` — the
INNER exponent `y` is the left operand of the multiplication (the code
builds `MulNode { lhs: rvalue, rhs: exponent }` where `rvalue` is the
inner exponent) — not `x ^ (z * y)` as the claim states. -/
theorem pow_nested_operand_order_counterexample :
    simplifyF 10 (.pow (.pow (.var 'x') (.var 'y')) (.var 'z')) =
      .ok (.pow (.var 'x') (.mul (.var 'y') (.var 'z'))) ∧
    ECT.pow (.var 'x') (.mul (.var 'y') (.var 'z')) ≠
      ECT.pow (.var 'x') (.mul (.var 'z') (.var 'y')) := by
  refine ⟨rfl, by decide⟩

/-! ## The canonical orderer -/

/-- Model of `EquationComponentType::calculate_weight` (src/equation.rs
lines 657-686): `none` models a panic — the `todo!()` on `LogNode` and
rug zero division in the `DivNode` branch. -/
def calcWeight : ECT → Option Number
  | .const i => some i
  | .var c => some (.int (c.toNat : ℤ))
  | .add l r => do pure (addN (← calcWeight l) (← calcWeight r))
  | .sub l r => do pure (subN (← calcWeight l) (← calcWeight r))
  | .mul l r => do pure (mulN (← calcWeight l) (← calcWeight r))
  | .div a b => do divN (← calcWeight a) (← calcWeight b)
  | .pow b e => do pure (powN (← calcWeight b) (← calcWeight e))
  | .log _ _ => none
  | .minus i => do pure (negN (← calcWeight i))

/-- The inner scan of the selection sort (src/equation.rs lines 589-600):
`highest` is replaced only on a strictly greater weight, so the FIRST
maximum is selected. -/
def bestIdx : Number → Nat → Nat → List (ECT × Number) → Nat
  | _, h, _, [] => h
  | best, h, j, y :: ys =>
      if ltN best y.2 then bestIdx y.2 j (j + 1) ys
      else bestIdx best h (j + 1) ys

/-- `weights.swap(i, highest); terms.swap(i, highest)`: swap position 0
with position `h` (the displaced head lands at position `h`). -/
def swapToFront : List (ECT × Number) → Nat → List (ECT × Number)
  | [], _ => []
  | x :: xs, 0 => x :: xs
  | x :: xs, h + 1 =>
      match xs.splitAt h with
      | (pre, a :: post) => a :: (pre ++ x :: post)
      | (_, []) => x :: xs

/-- One outer iteration of the selection sort: find the first maximum of
the suffix and swap it to the front. -/
def selStep (l : List (ECT × Number)) : List (ECT × Number) :=
  match l with
  | [] => []
  | x :: xs => swapToFront (x :: xs) (bestIdx x.2 0 1 xs)

/-- The outer loop, one `selStep` per position. -/
def selSortAux : Nat → List (ECT × Number) → List (ECT × Number)
  | 0, l => l
  | _ + 1, [] => []
  | k + 1, x :: xs =>
      match selStep (x :: xs) with
      | [] => []
      | y :: ys => y :: selSortAux k ys

/-- The `sort` closure of `order`: selection sort, descending by weight,
with swaps (NOT stable). -/
def selSort (l : List (ECT × Number)) : List (ECT × Number) := selSortAux l.length l

/-- `construct_from_terms` (src/equation.rs lines 688-699). -/
def constructTerms : List ECT → ECT
  | [] => .const (.int 0)
  | [t] => t
  | t :: rest => .add t (constructTerms rest)

/-- `construct_from_products` (lines 701-712). -/
def constructProds : List ECT → ECT
  | [] => .const (.int 0)
  | [t] => t
  | t :: rest => .mul t (constructProds rest)

/-- The weight vector of a term list (`weights.push(terms[i].calculate_weight())`). -/
def weightsOf : List ECT → Option (List Number)
  | [] => some []
  | t :: ts => do pure ((← calcWeight t) :: (← weightsOf ts))

mutual

/-- Model of `EquationComponentType::order` (src/equation.rs lines
587-655).  `none` models a panic from `calculate_weight`. -/
def orderE : ECT → Option ECT
  | .const i => some (.const i)
  | .var i => some (.var i)
  | .add l r => do
      let tl ← sepT l
      let tr ← sepT r
      let ws ← weightsOf (tl ++ tr)
      pure (constructTerms ((selSort ((tl ++ tr).zip ws)).map Prod.fst))
  | .mul l r => do
      let tl ← sepP l
      let tr ← sepP r
      let ws ← weightsOf (tl ++ tr)
      pure (constructProds ((selSort ((tl ++ tr).zip ws)).map Prod.fst))
  | .sub l r => do pure (.sub (← orderE l) (← orderE r))
  | .div a b => do pure (.div (← orderE a) (← orderE b))
  | .pow b e => do pure (.pow (← orderE b) (← orderE e))
  | .log b a => do pure (.log (← orderE b) (← orderE a))
  | .minus i => do pure (.minus (← orderE i))
termination_by e => 2 * sizeOf e

/-- `separate_terms` (lines 714-722): flatten the Add spine, ordering
each non-Add leaf. -/
def sepT : ECT → Option (List ECT)
  | .add l r => do pure ((← sepT l) ++ (← sepT r))
  | e => do pure [← orderE e]
termination_by e => 2 * sizeOf e + 1

/-- `separate_products` (lines 724-732). -/
def sepP : ECT → Option (List ECT)
  | .mul l r => do pure ((← sepP l) ++ (← sepP r))
  | e => do pure [← orderE e]
termination_by e => 2 * sizeOf e + 1

end

/-! ## Facts about the weight comparison and the selection sort -/

theorem pcmpN_value (a b : Number) :
    pcmpN a b = match a.value, b.value with
      | some x, some y => some (cmpQ x y)
      | _, _ => none := by
  rcases a with za | qa | (_ | fa) <;> rcases b with zb | qb | (_ | fb) <;>
    simp [pcmpN, Number.value, cmpZ_cast]

theorem cmpQ_lt_iff (x y : ℚ) : cmpQ x y = .lt ↔ x < y := by
  unfold cmpQ
  by_cases h1 : x < y
  · simp [h1]
  · by_cases h2 : x = y <;> simp [h1, h2]

theorem ltN_true_iff (a b : Number) :
    ltN a b = true ↔ ∃ x y, a.value = some x ∧ b.value = some y ∧ x < y := by
  unfold ltN
  rw [pcmpN_value]
  rcases ha : a.value with _ | x
  · simp
  · rcases hb : b.value with _ | y
    · simp
    · simp
      rw [show ∀ o : Ordering, ((o == Ordering.lt) = true ↔ o = Ordering.lt) from
          fun o => by cases o <;> decide]
      exact cmpQ_lt_iff x y

theorem ltN_false_iff (a b : Number) :
    ltN a b = false ↔ ¬ (∃ x y, a.value = some x ∧ b.value = some y ∧ x < y) := by
  rw [← ltN_true_iff]
  cases ltN a b <;> simp

theorem ltN_self (a : Number) : ltN a a = false := by
  rw [ltN_false_iff]
  rintro ⟨x, y, hx, hy, hlt⟩
  rw [hx] at hy
  injection hy with hy
  subst hy
  exact absurd hlt (lt_irrefl x)

theorem ltN_trans {a b c : Number} (h1 : ltN a b = true) (h2 : ltN b c = true) :
    ltN a c = true := by
  obtain ⟨x, y, hx, hy, hxy⟩ := (ltN_true_iff a b).1 h1
  obtain ⟨y', z, hy', hz, hyz⟩ := (ltN_true_iff b c).1 h2
  rw [hy] at hy'
  injection hy' with hy'
  subst hy'
  exact (ltN_true_iff a c).2 ⟨x, z, hx, hz, hxy.trans hyz⟩

theorem ltN_nan_left {a b : Number} (h : a.value = none) : ltN a b = false := by
  rw [ltN_false_iff]
  rintro ⟨x, _, hx, _, _⟩
  rw [h] at hx
  exact Option.noConfusion hx

/-- The weight value that the inner selection scan settles on. -/
def bestVal : Number → List (ECT × Number) → Number
  | best, [] => best
  | best, y :: ys => if ltN best y.2 then bestVal y.2 ys else bestVal best ys

theorem bestVal_nan : ∀ (ys : List (ECT × Number)) (best : Number),
    best.value = none → bestVal best ys = best := by
  intro ys
  induction ys with
  | nil => intro best _; rfl
  | cons y ys ih =>
      intro best h
      unfold bestVal
      rw [ltN_nan_left h]
      exact ih best h

theorem bestVal_spec : ∀ (ys : List (ECT × Number)) (best : Number),
    ltN (bestVal best ys) best = false ∧
    ∀ z ∈ ys, ltN (bestVal best ys) z.2 = false := by
  intro ys
  induction ys with
  | nil => intro best; exact ⟨ltN_self best, by simp⟩
  | cons y ys ih =>
      intro best
      by_cases h : ltN best y.2 = true
      · have hbv : bestVal best (y :: ys) = bestVal y.2 ys := by
          simp only [bestVal]
          rw [h]
          simp
        obtain ⟨ih1, ih2⟩ := ih y.2
        rw [hbv]
        have hb : ltN (bestVal y.2 ys) best = false := by
          cases hc : ltN (bestVal y.2 ys) best with
          | false => rfl
          | true =>
              have := ltN_trans hc h
              rw [this] at ih1
              exact ih1
        refine ⟨hb, ?_⟩
        intro z hz
        rcases List.mem_cons.1 hz with rfl | hz'
        · exact ih1
        · exact ih2 z hz'
      · have h' : ltN best y.2 = false := by
          cases hc : ltN best y.2 with
          | false => rfl
          | true => exact absurd hc h
        have hbv : bestVal best (y :: ys) = bestVal best ys := by
          simp only [bestVal]
          rw [h']
          simp
        obtain ⟨ih1, ih2⟩ := ih best
        rw [hbv]
        refine ⟨ih1, ?_⟩
        intro z hz
        rcases List.mem_cons.1 hz with rfl | hz'
        · -- the settled value is not below the skipped weight z.2
          rw [ltN_false_iff]
          rintro ⟨vb, vz, hvb, hvz, hlt⟩
          rcases hbest : best.value with _ | vbest
          · rw [bestVal_nan ys best hbest, hbest] at hvb
            exact Option.noConfusion hvb
          · have h1 : ¬ (vb < vbest) := by
              intro hlt'
              have heq := (ltN_true_iff (bestVal best ys) best).2 ⟨vb, vbest, hvb, hbest, hlt'⟩
              rw [heq] at ih1
              exact Bool.noConfusion ih1
            have h2 : ¬ (vbest < vz) := by
              intro hlt'
              have heq := (ltN_true_iff best z.2).2 ⟨vbest, vz, hbest, hvz, hlt'⟩
              rw [heq] at h'
              exact Bool.noConfusion h'
            exact absurd hlt (not_lt_of_le (le_trans (le_of_not_lt h2) (le_of_not_lt h1)))
        · exact ih2 z hz'

theorem bestIdx_get :
    ∀ (ys g : List (ECT × Number)) (best : Number) (h j : Nat),
      (∃ t, g[h]? = some (t, best)) → g.drop j = ys →
      ∃ t', g[bestIdx best h j ys]? = some (t', bestVal best ys) := by
  intro ys
  induction ys with
  | nil =>
      intro g best h j hh _
      simpa [bestIdx, bestVal] using hh
  | cons y ys ih =>
      intro g best h j hh hdrop
      have hgj : g[j]? = some y := by
        have h0 : (g.drop j)[0]? = g[j + 0]? := List.getElem?_drop g j 0
        rw [hdrop] at h0
        simpa using h0.symm
      have hdrop' : g.drop (j + 1) = ys := by
        have h1 : (g.drop j).drop 1 = g.drop (j + 1) := by
          rw [List.drop_drop]
        rw [hdrop] at h1
        simpa using h1.symm
      simp only [bestIdx, bestVal]
      by_cases hl : ltN best y.2 = true
      · rw [if_pos hl, if_pos hl]
        exact ih g y.2 j (j + 1) ⟨y.1, by simpa using hgj⟩ hdrop'
      · rw [if_neg hl, if_neg hl]
        exact ih g best h (j + 1) hh hdrop'

theorem swapToFront_perm :
    ∀ (l : List (ECT × Number)) (h : Nat), (swapToFront l h).Perm l := by
  intro l h
  match l, h with
  | [], _ => simp [swapToFront]
  | x :: xs, 0 => simp [swapToFront]
  | x :: xs, h + 1 =>
      simp only [swapToFront, List.splitAt_eq]
      cases hd : xs.drop h with
      | nil => exact List.Perm.refl _
      | cons a post =>
          have hxs : xs.take h ++ a :: post = xs := by rw [← hd, List.take_append_drop]
          have p1 : (xs.take h ++ x :: post).Perm (x :: (xs.take h ++ post)) :=
            List.perm_middle
          have p2 : (a :: (xs.take h ++ x :: post)).Perm (a :: x :: (xs.take h ++ post)) :=
            p1.cons a
          have p3 : (a :: x :: (xs.take h ++ post)).Perm (x :: a :: (xs.take h ++ post)) :=
            List.Perm.swap x a _
          have p4 : (x :: a :: (xs.take h ++ post)).Perm (x :: (xs.take h ++ a :: post)) :=
            (List.perm_middle).symm.cons x
          have := ((p2.trans p3).trans p4)
          rw [hxs] at this
          exact this

theorem swapToFront_head :
    ∀ (x : ECT × Number) (xs : List (ECT × Number)) (h : Nat) (a : ECT × Number),
      (x :: xs)[h]? = some a → ∃ rest, swapToFront (x :: xs) h = a :: rest := by
  intro x xs h a hget
  match h with
  | 0 =>
      simp only [List.getElem?_cons_zero, Option.some.injEq] at hget
      subst hget
      exact ⟨xs, by simp [swapToFront]⟩
  | h + 1 =>
      have hx : xs[h]? = some a := by simpa using hget
      have hlen : h < xs.length := by
        rcases List.getElem?_eq_some.1 hx with ⟨hl, _⟩
        exact hl
      have ha : xs[h] = a := by
        rcases List.getElem?_eq_some.1 hx with ⟨hl, he⟩
        exact he
      have hd : xs.drop h = a :: xs.drop (h + 1) := by
        rw [List.drop_eq_getElem_cons hlen, ha]
      refine ⟨xs.take h ++ x :: xs.drop (h + 1), ?_⟩
      simp only [swapToFront, List.splitAt_eq, hd]

theorem selStep_spec : ∀ (x : ECT × Number) (xs : List (ECT × Number)),
    ∃ y ys, selStep (x :: xs) = y :: ys ∧ (y :: ys).Perm (x :: xs) ∧
      ∀ z ∈ x :: xs, ltN y.2 z.2 = false := by
  intro x xs
  obtain ⟨t', hget⟩ :=
    bestIdx_get xs (x :: xs) x.2 0 1 ⟨x.1, by simp⟩ (by simp)
  obtain ⟨rest, hsw⟩ := swapToFront_head x xs _ _ hget
  refine ⟨(t', bestVal x.2 xs), rest, by simpa [selStep] using hsw, ?_, ?_⟩
  · have := swapToFront_perm (x :: xs) (bestIdx x.2 0 1 xs)
    rw [show swapToFront (x :: xs) (bestIdx x.2 0 1 xs) =
          (t', bestVal x.2 xs) :: rest from hsw] at this
    exact this
  · intro z hz
    obtain ⟨hb1, hb2⟩ := bestVal_spec xs x.2
    rcases List.mem_cons.1 hz with rfl | hz'
    · exact hb1
    · exact hb2 z hz'

theorem selSortAux_perm : ∀ (k : Nat) (l : List (ECT × Number)),
    (selSortAux k l).Perm l := by
  intro k
  induction k with
  | zero => intro l; exact List.Perm.refl _
  | succ k ih =>
      intro l
      match l with
      | [] => exact List.Perm.refl _
      | x :: xs =>
          obtain ⟨y, ys, hstep, hperm, _⟩ := selStep_spec x xs
          simp only [selSortAux, hstep]
          exact ((ih ys).cons y).trans hperm

theorem selSortAux_sorted : ∀ (k : Nat) (l : List (ECT × Number)), l.length ≤ k →
    List.Pairwise (fun p q : ECT × Number => ltN p.2 q.2 = false) (selSortAux k l) := by
  intro k
  induction k with
  | zero =>
      intro l hl
      have : l = [] := List.length_eq_zero.1 (Nat.le_zero.1 hl)
      subst this
      simp [selSortAux]
  | succ k ih =>
      intro l hl
      match l with
      | [] => simp [selSortAux]
      | x :: xs =>
          obtain ⟨y, ys, hstep, hperm, hdom⟩ := selStep_spec x xs
          simp only [selSortAux, hstep]
          refine List.Pairwise.cons ?_ (ih ys ?_)
          · intro z hz
            have hz1 : z ∈ ys := (selSortAux_perm k ys).mem_iff.1 hz
            have hz2 : z ∈ x :: xs := hperm.mem_iff.1 (List.mem_cons_of_mem y hz1)
            exact hdom z hz2
          · have hlen := hperm.length_eq
            simp only [List.length_cons] at hlen hl
            omega

/-- The sort of `order` permutes the term/weight pairs. -/
theorem selSort_perm (l : List (ECT × Number)) : (selSort l).Perm l :=
  selSortAux_perm _ _

/-- The sort of `order` leaves no adjacent pair in strictly ascending
weight order (descending up to incomparability). -/
theorem selSort_sorted (l : List (ECT × Number)) :
    List.Pairwise (fun p q : ECT × Number => ltN p.2 q.2 = false) (selSort l) :=
  selSortAux_sorted _ _ le_rfl

/-- The Div-free, Log-free fragment of the expression language: on it
every weight computation is defined (no `todo!()` Log weight, no weight
division that could hit a zero denominator). -/
def noDivLog : ECT → Bool
  | .const _ => true
  | .var _ => true
  | .add l r => noDivLog l && noDivLog r
  | .sub l r => noDivLog l && noDivLog r
  | .mul l r => noDivLog l && noDivLog r
  | .div _ _ => false
  | .pow b e => noDivLog b && noDivLog e
  | .log _ _ => false
  | .minus v => noDivLog v

theorem calcWeight_total : ∀ e : ECT, noDivLog e = true → ∃ w, calcWeight e = some w := by
  intro e
  induction e with
  | const i => exact fun _ => ⟨i, rfl⟩
  | var c => exact fun _ => ⟨.int (c.toNat : ℤ), rfl⟩
  | add l r ihl ihr =>
      intro h
      simp only [noDivLog, Bool.and_eq_true] at h
      obtain ⟨wl, hl⟩ := ihl h.1
      obtain ⟨wr, hr⟩ := ihr h.2
      exact ⟨addN wl wr, by simp [calcWeight, hl, hr]⟩
  | sub l r ihl ihr =>
      intro h
      simp only [noDivLog, Bool.and_eq_true] at h
      obtain ⟨wl, hl⟩ := ihl h.1
      obtain ⟨wr, hr⟩ := ihr h.2
      exact ⟨subN wl wr, by simp [calcWeight, hl, hr]⟩
  | mul l r ihl ihr =>
      intro h
      simp only [noDivLog, Bool.and_eq_true] at h
      obtain ⟨wl, hl⟩ := ihl h.1
      obtain ⟨wr, hr⟩ := ihr h.2
      exact ⟨mulN wl wr, by simp [calcWeight, hl, hr]⟩
  | div a b iha ihb => intro h; exact absurd h (by simp [noDivLog])
  | pow b e ihb ihe =>
      intro h
      simp only [noDivLog, Bool.and_eq_true] at h
      obtain ⟨wb, hb⟩ := ihb h.1
      obtain ⟨we, he⟩ := ihe h.2
      exact ⟨powN wb we, by simp [calcWeight, hb, he]⟩
  | log b a ihb iha => intro h; exact absurd h (by simp [noDivLog])
  | minus v ihv =>
      intro h
      obtain ⟨w, hw⟩ := ihv (by simpa [noDivLog] using h)
      exact ⟨negN w, by simp [calcWeight, hw]⟩

theorem weightsOf_total : ∀ ts : List ECT, (∀ t ∈ ts, noDivLog t = true) →
    ∃ ws, weightsOf ts = some ws := by
  intro ts
  induction ts with
  | nil => exact fun _ => ⟨[], rfl⟩
  | cons t ts ih =>
      intro h
      obtain ⟨w, hw⟩ := calcWeight_total t (h t (List.mem_cons_self t ts))
      obtain ⟨ws, hws⟩ := ih fun t' ht' => h t' (List.mem_cons_of_mem t ht')
      exact ⟨w :: ws, by simp [weightsOf, hw, hws]⟩

theorem constructTerms_noDivLog : ∀ ts : List ECT,
    (∀ t ∈ ts, noDivLog t = true) → noDivLog (constructTerms ts) = true := by
  intro ts
  induction ts with
  | nil => exact fun _ => rfl
  | cons t rest ih =>
      intro h
      cases rest with
      | nil => exact h t (List.mem_cons_self t [])
      | cons u rest' =>
          have : noDivLog (constructTerms (t :: u :: rest')) =
              (noDivLog t && noDivLog (constructTerms (u :: rest'))) := rfl
          rw [this, Bool.and_eq_true]
          exact ⟨h t (List.mem_cons_self t _),
            ih fun t' ht' => h t' (List.mem_cons_of_mem t ht')⟩

theorem constructProds_noDivLog : ∀ ts : List ECT,
    (∀ t ∈ ts, noDivLog t = true) → noDivLog (constructProds ts) = true := by
  intro ts
  induction ts with
  | nil => exact fun _ => rfl
  | cons t rest ih =>
      intro h
      cases rest with
      | nil => exact h t (List.mem_cons_self t [])
      | cons u rest' =>
          have : noDivLog (constructProds (t :: u :: rest')) =
              (noDivLog t && noDivLog (constructProds (u :: rest'))) := rfl
          rw [this, Bool.and_eq_true]
          exact ⟨h t (List.mem_cons_self t _),
            ih fun t' ht' => h t' (List.mem_cons_of_mem t ht')⟩

theorem zip_fst_mem {ts : List ECT} {ws : List Number} {p : ECT × Number}
    (hp : p ∈ ts.zip ws) : p.1 ∈ ts := by
  rcases p with ⟨t, w⟩
  exact (List.of_mem_zip hp).1

theorem orderTotalAux : ∀ (N : Nat) (e : ECT), sizeOf e ≤ N → noDivLog e = true →
    (∃ t, orderE e = some t ∧ noDivLog t = true) ∧
    (∃ ts, sepT e = some ts ∧ ∀ t ∈ ts, noDivLog t = true) ∧
    (∃ ts, sepP e = some ts ∧ ∀ t ∈ ts, noDivLog t = true) := by
  intro N
  induction N with
  | zero =>
      intro e he _
      exfalso
      cases e <;> simp at he
  | succ N ih =>
      intro e he hnd
      have hP : ∃ t, orderE e = some t ∧ noDivLog t = true := by
        cases e with
        | const i => exact ⟨.const i, by simp [orderE], rfl⟩
        | var c => exact ⟨.var c, by simp [orderE], rfl⟩
        | add l r =>
            simp only [noDivLog, Bool.and_eq_true] at hnd
            have hsl : sizeOf l ≤ N := by simp at he; omega
            have hsr : sizeOf r ≤ N := by simp at he; omega
            obtain ⟨tl, htl, htlm⟩ := (ih l hsl hnd.1).2.1
            obtain ⟨tr, htr, htrm⟩ := (ih r hsr hnd.2).2.1
            have hmem : ∀ t ∈ tl ++ tr, noDivLog t = true := by
              intro t ht
              rcases List.mem_append.1 ht with h' | h'
              · exact htlm t h'
              · exact htrm t h'
            obtain ⟨ws, hws⟩ := weightsOf_total _ hmem
            refine ⟨constructTerms ((selSort ((tl ++ tr).zip ws)).map Prod.fst),
              by simp [orderE, htl, htr, hws], ?_⟩
            apply constructTerms_noDivLog
            intro t ht
            rcases List.mem_map.1 ht with ⟨p, hp, rfl⟩
            exact hmem _ (zip_fst_mem ((selSort_perm _).mem_iff.1 hp))
        | mul l r =>
            simp only [noDivLog, Bool.and_eq_true] at hnd
            have hsl : sizeOf l ≤ N := by simp at he; omega
            have hsr : sizeOf r ≤ N := by simp at he; omega
            obtain ⟨tl, htl, htlm⟩ := (ih l hsl hnd.1).2.2
            obtain ⟨tr, htr, htrm⟩ := (ih r hsr hnd.2).2.2
            have hmem : ∀ t ∈ tl ++ tr, noDivLog t = true := by
              intro t ht
              rcases List.mem_append.1 ht with h' | h'
              · exact htlm t h'
              · exact htrm t h'
            obtain ⟨ws, hws⟩ := weightsOf_total _ hmem
            refine ⟨constructProds ((selSort ((tl ++ tr).zip ws)).map Prod.fst),
              by simp [orderE, htl, htr, hws], ?_⟩
            apply constructProds_noDivLog
            intro t ht
            rcases List.mem_map.1 ht with ⟨p, hp, rfl⟩
            exact hmem _ (zip_fst_mem ((selSort_perm _).mem_iff.1 hp))
        | sub l r =>
            simp only [noDivLog, Bool.and_eq_true] at hnd
            have hsl : sizeOf l ≤ N := by simp at he; omega
            have hsr : sizeOf r ≤ N := by simp at he; omega
            obtain ⟨t1, h1, m1⟩ := (ih l hsl hnd.1).1
            obtain ⟨t2, h2, m2⟩ := (ih r hsr hnd.2).1
            exact ⟨.sub t1 t2, by simp [orderE, h1, h2], by simp [noDivLog, m1, m2]⟩
        | div a b => exact absurd hnd (by simp [noDivLog])
        | pow b ex =>
            simp only [noDivLog, Bool.and_eq_true] at hnd
            have hsb : sizeOf b ≤ N := by simp at he; omega
            have hse : sizeOf ex ≤ N := by simp at he; omega
            obtain ⟨t1, h1, m1⟩ := (ih b hsb hnd.1).1
            obtain ⟨t2, h2, m2⟩ := (ih ex hse hnd.2).1
            exact ⟨.pow t1 t2, by simp [orderE, h1, h2], by simp [noDivLog, m1, m2]⟩
        | log b a => exact absurd hnd (by simp [noDivLog])
        | minus v =>
            have hsv : sizeOf v ≤ N := by simp at he; omega
            obtain ⟨t1, h1, m1⟩ := (ih v hsv (by simpa [noDivLog] using hnd)).1
            exact ⟨.minus t1, by simp [orderE, h1], by simpa [noDivLog] using m1⟩
      refine ⟨hP, ?_, ?_⟩
      · cases e with
        | add l r =>
            simp only [noDivLog, Bool.and_eq_true] at hnd
            have hsl : sizeOf l ≤ N := by simp at he; omega
            have hsr : sizeOf r ≤ N := by simp at he; omega
            obtain ⟨tl, htl, htlm⟩ := (ih l hsl hnd.1).2.1
            obtain ⟨tr, htr, htrm⟩ := (ih r hsr hnd.2).2.1
            refine ⟨tl ++ tr, by simp [sepT, htl, htr], ?_⟩
            intro t ht
            rcases List.mem_append.1 ht with h' | h'
            · exact htlm t h'
            · exact htrm t h'
        | const i =>
            obtain ⟨t, ht, hm⟩ := hP
            exact ⟨[t], by simp [sepT, ht], by simpa using hm⟩
        | var c =>
            obtain ⟨t, ht, hm⟩ := hP
            exact ⟨[t], by simp [sepT, ht], by simpa using hm⟩
        | sub l r =>
            obtain ⟨t, ht, hm⟩ := hP
            exact ⟨[t], by simp [sepT, ht], by simpa using hm⟩
        | mul l r =>
            obtain ⟨t, ht, hm⟩ := hP
            exact ⟨[t], by simp [sepT, ht], by simpa using hm⟩
        | div a b => exact absurd hnd (by simp [noDivLog])
        | pow b ex =>
            obtain ⟨t, ht, hm⟩ := hP
            exact ⟨[t], by simp [sepT, ht], by simpa using hm⟩
        | log b a => exact absurd hnd (by simp [noDivLog])
        | minus v =>
            obtain ⟨t, ht, hm⟩ := hP
            exact ⟨[t], by simp [sepT, ht], by simpa using hm⟩
      · cases e with
        | mul l r =>
            simp only [noDivLog, Bool.and_eq_true] at hnd
            have hsl : sizeOf l ≤ N := by simp at he; omega
            have hsr : sizeOf r ≤ N := by simp at he; omega
            obtain ⟨tl, htl, htlm⟩ := (ih l hsl hnd.1).2.2
            obtain ⟨tr, htr, htrm⟩ := (ih r hsr hnd.2).2.2
            refine ⟨tl ++ tr, by simp [sepP, htl, htr], ?_⟩
            intro t ht
            rcases List.mem_append.1 ht with h' | h'
            · exact htlm t h'
            · exact htrm t h'
        | const i =>
            obtain ⟨t, ht, hm⟩ := hP
            exact ⟨[t], by simp [sepP, ht], by simpa using hm⟩
        | var c =>
            obtain ⟨t, ht, hm⟩ := hP
            exact ⟨[t], by simp [sepP, ht], by simpa using hm⟩
        | sub l r =>
            obtain ⟨t, ht, hm⟩ := hP
            exact ⟨[t], by simp [sepP, ht], by simpa using hm⟩
        | add l r =>
            obtain ⟨t, ht, hm⟩ := hP
            exact ⟨[t], by simp [sepP, ht], by simpa using hm⟩
        | div a b => exact absurd hnd (by simp [noDivLog])
        | pow b ex =>
            obtain ⟨t, ht, hm⟩ := hP
            exact ⟨[t], by simp [sepP, ht], by simpa using hm⟩
        | log b a => exact absurd hnd (by simp [noDivLog])
        | minus v =>
            obtain ⟨t, ht, hm⟩ := hP
            exact ⟨[t], by simp [sepP, ht], by simpa using hm⟩

/-- C5 counterexample: neither `order` nor `simplify` is total.  `order`
of the additive chain `Log_x(y) + 1` hits the `todo!()` in
`calculate_weight` and panics; `simplify` of the constant division `1/0`
panics inside rug when building `Rational::from((1, 0))`. -/
theorem simplify_order_can_panic :
    orderE (.add (.log (.var 'x') (.var 'y')) (.const (.int 1))) = none ∧
    simplifyF 30 (.div (.const (.int 1)) (.const (.int 0))) = .error .panicked := by
  constructor
  · simp [orderE, sepT, weightsOf, calcWeight]
  · rfl

/-- C5 (amended): `simplify` and `order` are NOT total — `order` panics
when an additive or multiplicative chain contains a `Log` term (its
weight is `todo!()`) or when a term weight divides by zero, and
`simplify` panics when folding a constant division with zero denominator
(see the counterexample).  On the Div-free and Log-free fragment, `order`
does return a result for every expression. -/
theorem order_total_on_fragment : ∀ e : ECT, noDivLog e = true →
    ∃ t, orderE e = some t := by
  intro e h
  obtain ⟨t, ht, _⟩ := (orderTotalAux (sizeOf e) e le_rfl h).1
  exact ⟨t, ht⟩

/-- Witness for C5's amended theorem. -/
theorem order_total_on_fragment_witness :
    ∃ t, orderE (ECT.add (.var 'x') (.var 'y')) = some t :=
  order_total_on_fragment (ECT.add (.var 'x') (.var 'y')) rfl

/-- C8 counterexample: the selection sort of `order` is NOT stable.  In
`(--c + c) + 2 + x` (reading `--c` as `Minus(Minus(c))`), the terms
`--c` and `c` have EQUAL weight (99), and `--c` precedes `c` in the
input, but the ordered output places `c` before `--c`: the swap that
moves `x` (weight 120) to the front displaces the original head behind
its equal-weight partner. -/
theorem order_not_stable :
    calcWeight (.minus (.minus (.var 'c'))) = calcWeight (.var 'c') ∧
    ECT.minus (.minus (.var 'c')) ≠ ECT.var 'c' ∧
    orderE (.add (.add (.add (.minus (.minus (.var 'c'))) (.var 'c'))
        (.const (.int 2))) (.var 'x')) =
      some (.add (.var 'x') (.add (.var 'c')
        (.add (.minus (.minus (.var 'c'))) (.const (.int 2))))) := by
  refine ⟨rfl, by decide, ?_⟩
  simp [orderE, sepT, weightsOf, calcWeight, selSort, selSortAux, selStep,
    bestIdx, swapToFront, ltN, pcmpN, cmpZ, negN, constructTerms]

/-- C8 (amended): `order` sorts the flattened additive (and
multiplicative) terms into weight order that is descending in the sense
that no term is strictly below a later term, and the output terms are a
permutation of the recursively-ordered input terms; but the sort is NOT
stable — it is a selection sort that swaps the selected maximum with the
front element, which can reorder equal-weight terms (see the
counterexample). -/
theorem order_sorts_descending : ∀ l r e',
    (orderE (.add l r) = some e' →
      ∃ tl tr ws, sepT l = some tl ∧ sepT r = some tr ∧
        weightsOf (tl ++ tr) = some ws ∧
        e' = constructTerms ((selSort ((tl ++ tr).zip ws)).map Prod.fst) ∧
        (selSort ((tl ++ tr).zip ws)).Perm ((tl ++ tr).zip ws) ∧
        List.Pairwise (fun p q : ECT × Number => ltN p.2 q.2 = false)
          (selSort ((tl ++ tr).zip ws))) ∧
    (orderE (.mul l r) = some e' →
      ∃ tl tr ws, sepP l = some tl ∧ sepP r = some tr ∧
        weightsOf (tl ++ tr) = some ws ∧
        e' = constructProds ((selSort ((tl ++ tr).zip ws)).map Prod.fst) ∧
        (selSort ((tl ++ tr).zip ws)).Perm ((tl ++ tr).zip ws) ∧
        List.Pairwise (fun p q : ECT × Number => ltN p.2 q.2 = false)
          (selSort ((tl ++ tr).zip ws))) := by
  intro l r e'
  constructor
  · intro h
    rcases htl : sepT l with _ | tl
    · simp [orderE, htl] at h
    · rcases htr : sepT r with _ | tr
      · simp [orderE, htl, htr] at h
      · rcases hws : weightsOf (tl ++ tr) with _ | ws
        · simp [orderE, htl, htr, hws] at h
        · simp [orderE, htl, htr, hws] at h
          exact ⟨tl, tr, ws, rfl, rfl, hws, h.symm, selSort_perm _, selSort_sorted _⟩
  · intro h
    rcases htl : sepP l with _ | tl
    · simp [orderE, htl] at h
    · rcases htr : sepP r with _ | tr
      · simp [orderE, htl, htr] at h
      · rcases hws : weightsOf (tl ++ tr) with _ | ws
        · simp [orderE, htl, htr, hws] at h
        · simp [orderE, htl, htr, hws] at h
          exact ⟨tl, tr, ws, rfl, rfl, hws, h.symm, selSort_perm _, selSort_sorted _⟩

/-- Witness for C8's amended theorem at a concrete two-term chain. -/
theorem order_sorts_descending_witness :
    ∃ tl tr ws, sepT (ECT.var 'a') = some tl ∧
      sepT (ECT.const (.int 1)) = some tr ∧
      weightsOf (tl ++ tr) = some ws ∧
      ECT.add (.var 'a') (.const (.int 1)) =
        constructTerms ((selSort ((tl ++ tr).zip ws)).map Prod.fst) ∧
      (selSort ((tl ++ tr).zip ws)).Perm ((tl ++ tr).zip ws) ∧
      List.Pairwise (fun p q : ECT × Number => ltN p.2 q.2 = false)
        (selSort ((tl ++ tr).zip ws)) :=
  (order_sorts_descending (ECT.var 'a') (ECT.const (.int 1))
      (ECT.add (.var 'a') (.const (.int 1)))).1
    (by simp [orderE, sepT, weightsOf, calcWeight, selSort, selSortAux, selStep,
      bestIdx, swapToFront, ltN, pcmpN, cmpZ, constructTerms])

/-- C7 (amended): simplifying a nested power `(x^y)^z` rewrites it to
`x ^ (y * z)`, with the inner exponent `y` as the left operand of the
multiplication and the outer exponent `z` on the right. -/
theorem pow_nested_rewrite :
    ∀ x y z : Char, simplifyF 10 (.pow (.pow (.var x) (.var y)) (.var z)) =
      .ok (.pow (.var x) (.mul (.var y) (.var z))) := by
  intro x y z
  rfl

/-! ## The equation solver -/

/-- Model of `MathError` (src/math.rs lines 1-6).  NOTE: the committed
enum lacks a `NotYetImplemented` variant although `Equation::solve`
returns `MathError::NotYetImplemented` (the crate as committed does not
compile); the variant is modelled as the solver code intends. -/
inductive MathError where
  | zeroDivisionError
  | equationMismatchError
  | internalError
  | notYetImplemented
deriving DecidableEq, Repr

/-- Model of `Equation::count_occurrences` (src/equation.rs lines
1071-1114); the `i64` counter is modelled as `Nat` (it only ever grows
by 1 from 0). -/
def countOcc : ECT → Char → Nat
  | .const _, _ => 0
  | .var i, v => if i = v then 1 else 0
  | .add l r, v => countOcc l v + countOcc r v
  | .sub l r, v => countOcc l v + countOcc r v
  | .mul l r, v => countOcc l v + countOcc r v
  | .div a b, v => countOcc a v + countOcc b v
  | .pow b e, v => countOcc b v + countOcc e v
  | .log b a, v => countOcc b v + countOcc a v
  | .minus e, v => countOcc e v

/-- Model of the `AntiOperations` enum (src/equation.rs lines 1025-1039). -/
inductive AntiOp where
  | addLHS
  | addRHS
  | subLHS
  | subRHS
  | mulNumerator
  | mulDenominator
  | divLHS
  | divRHS
  | powLHS
  | powRHS
  | logLHS
  | logRHS
  | minusOp
deriving DecidableEq, Repr

/-- Model of `Equation::make_anti_operations_list` (src/equation.rs lines
1116-1208): descend to the variable (lhs first), pushing the inverse tag
on the way out; returns whether the variable was found, threading the
accumulated list.  NOTE the `LogNode` base case pushes `LogRHS`, whose
replay arm expects a `PowNode`. -/
def makeAntiOps : ECT → Char → List AntiOp → Bool × List AntiOp
  | .var i, v, list => (i = v, list)
  | .const _, _, list => (false, list)
  | .add l r, v, list =>
      let (fl, l1) := makeAntiOps l v list
      if fl then (true, l1 ++ [.subRHS])
      else
        let (fr, l2) := makeAntiOps r v l1
        if fr then (true, l2 ++ [.subLHS]) else (false, l2)
  | .sub l r, v, list =>
      let (fl, l1) := makeAntiOps l v list
      if fl then (true, l1 ++ [.addRHS])
      else
        let (fr, l2) := makeAntiOps r v l1
        if fr then (true, l2 ++ [.addLHS]) else (false, l2)
  | .mul l r, v, list =>
      let (fl, l1) := makeAntiOps l v list
      if fl then (true, l1 ++ [.divRHS])
      else
        let (fr, l2) := makeAntiOps r v l1
        if fr then (true, l2 ++ [.divLHS]) else (false, l2)
  | .div a b, v, list =>
      let (fl, l1) := makeAntiOps a v list
      if fl then (true, l1 ++ [.mulDenominator])
      else
        let (fr, l2) := makeAntiOps b v l1
        if fr then (true, l2 ++ [.mulNumerator]) else (false, l2)
  | .pow b e, v, list =>
      let (fl, l1) := makeAntiOps b v list
      if fl then (true, l1 ++ [.powRHS])
      else
        let (fr, l2) := makeAntiOps e v l1
        if fr then (true, l2 ++ [.logLHS]) else (false, l2)
  | .log b a, v, list =>
      let (fl, l1) := makeAntiOps b v list
      if fl then (true, l1 ++ [.logRHS])
      else
        let (fr, l2) := makeAntiOps a v l1
        if fr then (true, l2 ++ [.powLHS]) else (false, l2)
  | .minus e, v, list =>
      let (f, l1) := makeAntiOps e v list
      if f then (true, l1 ++ [.minusOp]) else (false, l1)

/-- The replay loop of `Equation::do_inverse` (src/equation.rs lines
1223-1384): the argument list is in pop order (root first); each tag must
match the current node's constructor, otherwise `InternalError`.  Returns
the final `(eq, result)` pair. -/
def replayOps : List AntiOp → ECT → ECT → Except MathError (ECT × ECT)
  | [], eq, result => .ok (eq, result)
  | op :: rest, eq, result =>
      match op, eq with
      | .subRHS, .add l r => replayOps rest l (.sub result r)
      | .subLHS, .add l r => replayOps rest r (.sub result l)
      | .addRHS, .sub l r => replayOps rest l (.add result r)
      | .addLHS, .sub l r => replayOps rest r (.add result (.minus l))
      | .divRHS, .mul l r => replayOps rest l (.div result r)
      | .divLHS, .mul l r => replayOps rest r (.div result l)
      | .mulDenominator, .div num den => replayOps rest num (.mul result den)
      | .mulNumerator, .div num den => replayOps rest den (.div num result)
      | .powRHS, .pow b e =>
          replayOps rest b (.pow result (.div (.const (.int 1)) e))
      | .logLHS, .pow b e => replayOps rest e (.log b result)
      | .powLHS, .log b a => replayOps rest a (.pow b result)
      | .logRHS, .pow b e =>
          replayOps rest b (.pow e (.div (.const (.int 1)) result))
      | .minusOp, .minus w => replayOps rest w (.minus result)
      | _, _ => .error .internalError

/-- Model of `Equation::do_inverse` (src/equation.rs lines 1210-1388):
build the plan, replay it from `Constant(0)`, then simplify + order the
result. -/
def doInverseF (n : Nat) (d : ECT) (v : Char) : Res (Except MathError ECT) :=
  match replayOps ((makeAntiOps d v []).2).reverse d (.const (.int 0)) with
  | .error e => .ok (.error e)
  | .ok (_, res) => do
      let s ← simplifyF n res
      match orderE s with
      | none => .error .panicked
      | some t => .ok (.ok t)

/-- The normalization step of `Equation::solve`:
`AddNode { lhs.simplify(), Minus(rhs.simplify()) }.simplify()`. -/
def normalizeF (n : Nat) (lhs rhs : ECT) : Res ECT := do
  let ls ← simplifyF n lhs
  let rs ← simplifyF n rhs
  simplifyF n (.add ls (.minus rs))

/-- Model of `Equation::solve` (src/equation.rs lines 1049-1069). -/
def solveF (n : Nat) (lhs rhs : ECT) (v : Char) : Res (Except MathError ECT) := do
  let d ← normalizeF n lhs rhs
  if 1 < countOcc d v then pure (.error .notYetImplemented)
  else if countOcc d v = 0 then pure (.error .equationMismatchError)
  else doInverseF n d v

/-- The descent path of `make_anti_operations_list` (lhs first) reaches
the BASE of a `LogNode`: there the recorded tag is `LogRHS`, whose replay
arm demands a `PowNode`, so the replay fails. -/
def hitsLogBase : ECT → Char → Bool
  | .const _, _ => false
  | .var _, _ => false
  | .add l r, v => if 0 < countOcc l v then hitsLogBase l v else hitsLogBase r v
  | .sub l r, v => if 0 < countOcc l v then hitsLogBase l v else hitsLogBase r v
  | .mul l r, v => if 0 < countOcc l v then hitsLogBase l v else hitsLogBase r v
  | .div a b, v => if 0 < countOcc a v then hitsLogBase a v else hitsLogBase b v
  | .pow b e, v => if 0 < countOcc b v then hitsLogBase b v else hitsLogBase e v
  | .log b a, v => if 0 < countOcc b v then true else hitsLogBase a v
  | .minus e, v => hitsLogBase e v

/-- C9: solving `3 = x*2` for `x` returns the exact rational `3/2`
(the code computes `(0 - 3) / (-2)`, i.e. `Rational::from((-3, -2))`,
which reduces to `3/2`), and `3/2` equals the float `1.5` under
cross-representation equality. -/
theorem solve_three_eq_x_times_two :
    solveF 60 (.const (.int 3)) (.mul (.var 'x') (.const (.int 2))) 'x' =
      .ok (.ok (.const (.rat (Rat.divInt (-3) (-2))))) ∧
    Rat.divInt (-3) (-2) = (3 : ℚ) / 2 ∧
    numEq (.rat (Rat.divInt (-3) (-2))) (.float (some ((3 : ℚ) / 2))) = true := by
  refine ⟨?_, by norm_num [Rat.divInt_eq_div], ?_⟩
  · have horder : orderE (.const (.rat (Rat.divInt (-3) (-2)))) =
        some (.const (.rat (Rat.divInt (-3) (-2)))) := by
      simp [orderE]
    calc solveF 60 (.const (.int 3)) (.mul (.var 'x') (.const (.int 2))) 'x'
        = (match orderE (.const (.rat (Rat.divInt (-3) (-2)))) with
            | none => (.error .panicked : Res (Except MathError ECT))
            | some t => .ok (.ok t)) := rfl
      _ = .ok (.ok (.const (.rat (Rat.divInt (-3) (-2))))) := by rw [horder]
  · simp only [numEq, decide_eq_true_eq]
    norm_num [Rat.divInt_eq_div]

/-- C3 counterexample: for the equation `Log_x(2) = 3` the variable `x`
occurs EXACTLY ONCE in the normalized difference, yet `solve` does not
return a solved result: the unique occurrence sits in the base of the
`Log`, where the plan records `LogRHS` but the replay arm for `LogRHS`
demands a `PowNode`, so `do_inverse` fails with `InternalError`. -/
theorem solve_log_base_internal_error :
    normalizeF 60 (.log (.var 'x') (.const (.int 2))) (.const (.int 3)) =
      .ok (.add (.const (.int (-3))) (.log (.var 'x') (.const (.int 2)))) ∧
    countOcc (.add (.const (.int (-3))) (.log (.var 'x') (.const (.int 2)))) 'x' = 1 ∧
    solveF 60 (.log (.var 'x') (.const (.int 2))) (.const (.int 3)) 'x' =
      .ok (.error .internalError) := by
  exact ⟨rfl, rfl, rfl⟩

theorem makeAntiOps_spec : ∀ (e : ECT) (v : Char),
    (∀ acc, makeAntiOps e v acc =
      ((makeAntiOps e v []).1, acc ++ (makeAntiOps e v []).2)) ∧
    ((makeAntiOps e v []).1 = false → (makeAntiOps e v []).2 = []) ∧
    ((makeAntiOps e v []).1 = true ↔ 0 < countOcc e v) := by
  intro e v
  induction e with
  | const i =>
      exact ⟨fun acc => by simp [makeAntiOps], fun _ => rfl, by simp [makeAntiOps, countOcc]⟩
  | var i =>
      refine ⟨fun acc => by simp [makeAntiOps], fun _ => rfl, ?_⟩
      simp only [makeAntiOps, countOcc]
      by_cases h : i = v <;> simp [h]
  | add l r ihl ihr =>
      obtain ⟨hlacc, hlemp, hlcnt⟩ := ihl
      obtain ⟨hracc, hremp, hrcnt⟩ := ihr
      rcases hL : makeAntiOps l v [] with ⟨fl, A⟩
      rw [hL] at hlacc hlemp hlcnt
      rcases hR : makeAntiOps r v [] with ⟨fr, B⟩
      rw [hR] at hracc hremp hrcnt
      simp only at hlacc hlemp hlcnt hracc hremp hrcnt
      cases fl with
      | true =>
          have hbase : ∀ acc, makeAntiOps (ECT.add l r) v acc = (true, acc ++ (A ++ [.subRHS])) := by
            intro acc
            simp only [makeAntiOps, hlacc acc]
            simp
          refine ⟨?_, ?_, ?_⟩
          · intro acc
            rw [hbase acc, hbase []]
            simp
          · rw [hbase []]
            simp
          · rw [hbase []]
            simp only [countOcc]
            have h1 := hlcnt.1 rfl
            simp
            omega
      | false =>
          have hA : A = [] := hlemp rfl
          subst hA
          have h1 : countOcc l v = 0 := by
            by_contra hh
            have := hlcnt.2 (by omega)
            simp at this
          cases fr with
          | true =>
              have hbase : ∀ acc, makeAntiOps (ECT.add l r) v acc = (true, acc ++ (B ++ [.subLHS])) := by
                intro acc
                simp only [makeAntiOps, hlacc acc]
                simp only [List.append_nil]
                rw [hracc acc]
                simp
              refine ⟨?_, ?_, ?_⟩
              · intro acc
                rw [hbase acc, hbase []]
                simp
              · rw [hbase []]
                simp
              · rw [hbase []]
                simp only [countOcc]
                have h2 := hrcnt.1 rfl
                simp
                omega
          | false =>
              have hB : B = [] := hremp rfl
              subst hB
              have h2 : countOcc r v = 0 := by
                by_contra hh
                have := hrcnt.2 (by omega)
                simp at this
              have hbase : ∀ acc, makeAntiOps (ECT.add l r) v acc = (false, acc) := by
                intro acc
                simp only [makeAntiOps, hlacc acc]
                simp only [List.append_nil]
                rw [hracc acc]
                simp
              refine ⟨?_, ?_, ?_⟩
              · intro acc
                rw [hbase acc, hbase []]
                simp
              · intro _
                rw [hbase []]
              · rw [hbase []]
                simp [countOcc, h1, h2]
  | sub l r ihl ihr =>
      obtain ⟨hlacc, hlemp, hlcnt⟩ := ihl
      obtain ⟨hracc, hremp, hrcnt⟩ := ihr
      rcases hL : makeAntiOps l v [] with ⟨fl, A⟩
      rw [hL] at hlacc hlemp hlcnt
      rcases hR : makeAntiOps r v [] with ⟨fr, B⟩
      rw [hR] at hracc hremp hrcnt
      simp only at hlacc hlemp hlcnt hracc hremp hrcnt
      cases fl with
      | true =>
          have hbase : ∀ acc, makeAntiOps (ECT.sub l r) v acc = (true, acc ++ (A ++ [.addRHS])) := by
            intro acc
            simp only [makeAntiOps, hlacc acc]
            simp
          refine ⟨?_, ?_, ?_⟩
          · intro acc
            rw [hbase acc, hbase []]
            simp
          · rw [hbase []]
            simp
          · rw [hbase []]
            simp only [countOcc]
            have h1 := hlcnt.1 rfl
            simp
            omega
      | false =>
          have hA : A = [] := hlemp rfl
          subst hA
          have h1 : countOcc l v = 0 := by
            by_contra hh
            have := hlcnt.2 (by omega)
            simp at this
          cases fr with
          | true =>
              have hbase : ∀ acc, makeAntiOps (ECT.sub l r) v acc = (true, acc ++ (B ++ [.addLHS])) := by
                intro acc
                simp only [makeAntiOps, hlacc acc]
                simp only [List.append_nil]
                rw [hracc acc]
                simp
              refine ⟨?_, ?_, ?_⟩
              · intro acc
                rw [hbase acc, hbase []]
                simp
              · rw [hbase []]
                simp
              · rw [hbase []]
                simp only [countOcc]
                have h2 := hrcnt.1 rfl
                simp
                omega
          | false =>
              have hB : B = [] := hremp rfl
              subst hB
              have h2 : countOcc r v = 0 := by
                by_contra hh
                have := hrcnt.2 (by omega)
                simp at this
              have hbase : ∀ acc, makeAntiOps (ECT.sub l r) v acc = (false, acc) := by
                intro acc
                simp only [makeAntiOps, hlacc acc]
                simp only [List.append_nil]
                rw [hracc acc]
                simp
              refine ⟨?_, ?_, ?_⟩
              · intro acc
                rw [hbase acc, hbase []]
                simp
              · intro _
                rw [hbase []]
              · rw [hbase []]
                simp [countOcc, h1, h2]
  | mul l r ihl ihr =>
      obtain ⟨hlacc, hlemp, hlcnt⟩ := ihl
      obtain ⟨hracc, hremp, hrcnt⟩ := ihr
      rcases hL : makeAntiOps l v [] with ⟨fl, A⟩
      rw [hL] at hlacc hlemp hlcnt
      rcases hR : makeAntiOps r v [] with ⟨fr, B⟩
      rw [hR] at hracc hremp hrcnt
      simp only at hlacc hlemp hlcnt hracc hremp hrcnt
      cases fl with
      | true =>
          have hbase : ∀ acc, makeAntiOps (ECT.mul l r) v acc = (true, acc ++ (A ++ [.divRHS])) := by
            intro acc
            simp only [makeAntiOps, hlacc acc]
            simp
          refine ⟨?_, ?_, ?_⟩
          · intro acc
            rw [hbase acc, hbase []]
            simp
          · rw [hbase []]
            simp
          · rw [hbase []]
            simp only [countOcc]
            have h1 := hlcnt.1 rfl
            simp
            omega
      | false =>
          have hA : A = [] := hlemp rfl
          subst hA
          have h1 : countOcc l v = 0 := by
            by_contra hh
            have := hlcnt.2 (by omega)
            simp at this
          cases fr with
          | true =>
              have hbase : ∀ acc, makeAntiOps (ECT.mul l r) v acc = (true, acc ++ (B ++ [.divLHS])) := by
                intro acc
                simp only [makeAntiOps, hlacc acc]
                simp only [List.append_nil]
                rw [hracc acc]
                simp
              refine ⟨?_, ?_, ?_⟩
              · intro acc
                rw [hbase acc, hbase []]
                simp
              · rw [hbase []]
                simp
              · rw [hbase []]
                simp only [countOcc]
                have h2 := hrcnt.1 rfl
                simp
                omega
          | false =>
              have hB : B = [] := hremp rfl
              subst hB
              have h2 : countOcc r v = 0 := by
                by_contra hh
                have := hrcnt.2 (by omega)
                simp at this
              have hbase : ∀ acc, makeAntiOps (ECT.mul l r) v acc = (false, acc) := by
                intro acc
                simp only [makeAntiOps, hlacc acc]
                simp only [List.append_nil]
                rw [hracc acc]
                simp
              refine ⟨?_, ?_, ?_⟩
              · intro acc
                rw [hbase acc, hbase []]
                simp
              · intro _
                rw [hbase []]
              · rw [hbase []]
                simp [countOcc, h1, h2]
  | div a b ihl ihr =>
      obtain ⟨hlacc, hlemp, hlcnt⟩ := ihl
      obtain ⟨hracc, hremp, hrcnt⟩ := ihr
      rcases hL : makeAntiOps a v [] with ⟨fl, A⟩
      rw [hL] at hlacc hlemp hlcnt
      rcases hR : makeAntiOps b v [] with ⟨fr, B⟩
      rw [hR] at hracc hremp hrcnt
      simp only at hlacc hlemp hlcnt hracc hremp hrcnt
      cases fl with
      | true =>
          have hbase : ∀ acc, makeAntiOps (ECT.div a b) v acc = (true, acc ++ (A ++ [.mulDenominator])) := by
            intro acc
            simp only [makeAntiOps, hlacc acc]
            simp
          refine ⟨?_, ?_, ?_⟩
          · intro acc
            rw [hbase acc, hbase []]
            simp
          · rw [hbase []]
            simp
          · rw [hbase []]
            simp only [countOcc]
            have h1 := hlcnt.1 rfl
            simp
            omega
      | false =>
          have hA : A = [] := hlemp rfl
          subst hA
          have h1 : countOcc a v = 0 := by
            by_contra hh
            have := hlcnt.2 (by omega)
            simp at this
          cases fr with
          | true =>
              have hbase : ∀ acc, makeAntiOps (ECT.div a b) v acc = (true, acc ++ (B ++ [.mulNumerator])) := by
                intro acc
                simp only [makeAntiOps, hlacc acc]
                simp only [List.append_nil]
                rw [hracc acc]
                simp
              refine ⟨?_, ?_, ?_⟩
              · intro acc
                rw [hbase acc, hbase []]
                simp
              · rw [hbase []]
                simp
              · rw [hbase []]
                simp only [countOcc]
                have h2 := hrcnt.1 rfl
                simp
                omega
          | false =>
              have hB : B = [] := hremp rfl
              subst hB
              have h2 : countOcc b v = 0 := by
                by_contra hh
                have := hrcnt.2 (by omega)
                simp at this
              have hbase : ∀ acc, makeAntiOps (ECT.div a b) v acc = (false, acc) := by
                intro acc
                simp only [makeAntiOps, hlacc acc]
                simp only [List.append_nil]
                rw [hracc acc]
                simp
              refine ⟨?_, ?_, ?_⟩
              · intro acc
                rw [hbase acc, hbase []]
                simp
              · intro _
                rw [hbase []]
              · rw [hbase []]
                simp [countOcc, h1, h2]
  | pow b ex ihl ihr =>
      obtain ⟨hlacc, hlemp, hlcnt⟩ := ihl
      obtain ⟨hracc, hremp, hrcnt⟩ := ihr
      rcases hL : makeAntiOps b v [] with ⟨fl, A⟩
      rw [hL] at hlacc hlemp hlcnt
      rcases hR : makeAntiOps ex v [] with ⟨fr, B⟩
      rw [hR] at hracc hremp hrcnt
      simp only at hlacc hlemp hlcnt hracc hremp hrcnt
      cases fl with
      | true =>
          have hbase : ∀ acc, makeAntiOps (ECT.pow b ex) v acc = (true, acc ++ (A ++ [.powRHS])) := by
            intro acc
            simp only [makeAntiOps, hlacc acc]
            simp
          refine ⟨?_, ?_, ?_⟩
          · intro acc
            rw [hbase acc, hbase []]
            simp
          · rw [hbase []]
            simp
          · rw [hbase []]
            simp only [countOcc]
            have h1 := hlcnt.1 rfl
            simp
            omega
      | false =>
          have hA : A = [] := hlemp rfl
          subst hA
          have h1 : countOcc b v = 0 := by
            by_contra hh
            have := hlcnt.2 (by omega)
            simp at this
          cases fr with
          | true =>
              have hbase : ∀ acc, makeAntiOps (ECT.pow b ex) v acc = (true, acc ++ (B ++ [.logLHS])) := by
                intro acc
                simp only [makeAntiOps, hlacc acc]
                simp only [List.append_nil]
                rw [hracc acc]
                simp
              refine ⟨?_, ?_, ?_⟩
              · intro acc
                rw [hbase acc, hbase []]
                simp
              · rw [hbase []]
                simp
              · rw [hbase []]
                simp only [countOcc]
                have h2 := hrcnt.1 rfl
                simp
                omega
          | false =>
              have hB : B = [] := hremp rfl
              subst hB
              have h2 : countOcc ex v = 0 := by
                by_contra hh
                have := hrcnt.2 (by omega)
                simp at this
              have hbase : ∀ acc, makeAntiOps (ECT.pow b ex) v acc = (false, acc) := by
                intro acc
                simp only [makeAntiOps, hlacc acc]
                simp only [List.append_nil]
                rw [hracc acc]
                simp
              refine ⟨?_, ?_, ?_⟩
              · intro acc
                rw [hbase acc, hbase []]
                simp
              · intro _
                rw [hbase []]
              · rw [hbase []]
                simp [countOcc, h1, h2]
  | log b a ihl ihr =>
      obtain ⟨hlacc, hlemp, hlcnt⟩ := ihl
      obtain ⟨hracc, hremp, hrcnt⟩ := ihr
      rcases hL : makeAntiOps b v [] with ⟨fl, A⟩
      rw [hL] at hlacc hlemp hlcnt
      rcases hR : makeAntiOps a v [] with ⟨fr, B⟩
      rw [hR] at hracc hremp hrcnt
      simp only at hlacc hlemp hlcnt hracc hremp hrcnt
      cases fl with
      | true =>
          have hbase : ∀ acc, makeAntiOps (ECT.log b a) v acc = (true, acc ++ (A ++ [.logRHS])) := by
            intro acc
            simp only [makeAntiOps, hlacc acc]
            simp
          refine ⟨?_, ?_, ?_⟩
          · intro acc
            rw [hbase acc, hbase []]
            simp
          · rw [hbase []]
            simp
          · rw [hbase []]
            simp only [countOcc]
            have h1 := hlcnt.1 rfl
            simp
            omega
      | false =>
          have hA : A = [] := hlemp rfl
          subst hA
          have h1 : countOcc b v = 0 := by
            by_contra hh
            have := hlcnt.2 (by omega)
            simp at this
          cases fr with
          | true =>
              have hbase : ∀ acc, makeAntiOps (ECT.log b a) v acc = (true, acc ++ (B ++ [.powLHS])) := by
                intro acc
                simp only [makeAntiOps, hlacc acc]
                simp only [List.append_nil]
                rw [hracc acc]
                simp
              refine ⟨?_, ?_, ?_⟩
              · intro acc
                rw [hbase acc, hbase []]
                simp
              · rw [hbase []]
                simp
              · rw [hbase []]
                simp only [countOcc]
                have h2 := hrcnt.1 rfl
                simp
                omega
          | false =>
              have hB : B = [] := hremp rfl
              subst hB
              have h2 : countOcc a v = 0 := by
                by_contra hh
                have := hrcnt.2 (by omega)
                simp at this
              have hbase : ∀ acc, makeAntiOps (ECT.log b a) v acc = (false, acc) := by
                intro acc
                simp only [makeAntiOps, hlacc acc]
                simp only [List.append_nil]
                rw [hracc acc]
                simp
              refine ⟨?_, ?_, ?_⟩
              · intro acc
                rw [hbase acc, hbase []]
                simp
              · intro _
                rw [hbase []]
              · rw [hbase []]
                simp [countOcc, h1, h2]
  | minus w ihw =>
      obtain ⟨hwacc, hwemp, hwcnt⟩ := ihw
      rcases hW : makeAntiOps w v [] with ⟨f, A⟩
      rw [hW] at hwacc hwemp hwcnt
      simp only at hwacc hwemp hwcnt
      cases f with
      | true =>
          have hbase : ∀ acc, makeAntiOps (ECT.minus w) v acc = (true, acc ++ (A ++ [.minusOp])) := by
            intro acc
            simp only [makeAntiOps, hwacc acc]
            simp
          refine ⟨?_, ?_, ?_⟩
          · intro acc
            rw [hbase acc, hbase []]
            simp
          · rw [hbase []]
            simp
          · rw [hbase []]
            simp only [countOcc]
            have h1 := hwcnt.1 rfl
            simp
            omega
      | false =>
          have hA : A = [] := hwemp rfl
          subst hA
          have h1 : countOcc w v = 0 := by
            by_contra hh
            have := hwcnt.2 (by omega)
            simp at this
          have hbase : ∀ acc, makeAntiOps (ECT.minus w) v acc = (false, acc) := by
            intro acc
            simp only [makeAntiOps, hwacc acc]
            simp
          refine ⟨?_, ?_, ?_⟩
          · intro acc
            rw [hbase acc, hbase []]
            simp
          · intro _
            rw [hbase []]
          · rw [hbase []]
            simp [countOcc, h1]

theorem makeAntiOps_add_found_first (l r : ECT) (v : Char) (h : 0 < countOcc l v) :
    makeAntiOps (ECT.add l r) v [] = (true, (makeAntiOps l v []).2 ++ [.subRHS]) := by
  rcases hL : makeAntiOps l v [] with ⟨fl, A⟩
  have hcnt := (makeAntiOps_spec l v).2.2
  rw [hL] at hcnt
  simp only at hcnt
  have hfl : fl = true := hcnt.2 h
  subst hfl
  simp only [makeAntiOps, hL]
  simp

theorem makeAntiOps_add_found_second (l r : ECT) (v : Char) (hl : countOcc l v = 0)
    (h : 0 < countOcc r v) :
    makeAntiOps (ECT.add l r) v [] = (true, (makeAntiOps r v []).2 ++ [.subLHS]) := by
  rcases hL : makeAntiOps l v [] with ⟨fl, A⟩
  have hspec := makeAntiOps_spec l v
  rw [hL] at hspec
  obtain ⟨_, hemp, hcnt⟩ := hspec
  simp only at hemp hcnt
  have hfl : fl = false := by
    cases fl
    · rfl
    · exact absurd (hcnt.1 rfl) (by omega)
  subst hfl
  have hA : A = [] := hemp rfl
  subst hA
  rcases hR : makeAntiOps r v [] with ⟨fr, B⟩
  have hcnt2 := (makeAntiOps_spec r v).2.2
  rw [hR] at hcnt2
  simp only at hcnt2
  have hfr : fr = true := hcnt2.2 h
  subst hfr
  simp only [makeAntiOps, hL, hR]
  simp

theorem makeAntiOps_sub_found_first (l r : ECT) (v : Char) (h : 0 < countOcc l v) :
    makeAntiOps (ECT.sub l r) v [] = (true, (makeAntiOps l v []).2 ++ [.addRHS]) := by
  rcases hL : makeAntiOps l v [] with ⟨fl, A⟩
  have hcnt := (makeAntiOps_spec l v).2.2
  rw [hL] at hcnt
  simp only at hcnt
  have hfl : fl = true := hcnt.2 h
  subst hfl
  simp only [makeAntiOps, hL]
  simp

theorem makeAntiOps_sub_found_second (l r : ECT) (v : Char) (hl : countOcc l v = 0)
    (h : 0 < countOcc r v) :
    makeAntiOps (ECT.sub l r) v [] = (true, (makeAntiOps r v []).2 ++ [.addLHS]) := by
  rcases hL : makeAntiOps l v [] with ⟨fl, A⟩
  have hspec := makeAntiOps_spec l v
  rw [hL] at hspec
  obtain ⟨_, hemp, hcnt⟩ := hspec
  simp only at hemp hcnt
  have hfl : fl = false := by
    cases fl
    · rfl
    · exact absurd (hcnt.1 rfl) (by omega)
  subst hfl
  have hA : A = [] := hemp rfl
  subst hA
  rcases hR : makeAntiOps r v [] with ⟨fr, B⟩
  have hcnt2 := (makeAntiOps_spec r v).2.2
  rw [hR] at hcnt2
  simp only at hcnt2
  have hfr : fr = true := hcnt2.2 h
  subst hfr
  simp only [makeAntiOps, hL, hR]
  simp

theorem makeAntiOps_mul_found_first (l r : ECT) (v : Char) (h : 0 < countOcc l v) :
    makeAntiOps (ECT.mul l r) v [] = (true, (makeAntiOps l v []).2 ++ [.divRHS]) := by
  rcases hL : makeAntiOps l v [] with ⟨fl, A⟩
  have hcnt := (makeAntiOps_spec l v).2.2
  rw [hL] at hcnt
  simp only at hcnt
  have hfl : fl = true := hcnt.2 h
  subst hfl
  simp only [makeAntiOps, hL]
  simp

theorem makeAntiOps_mul_found_second (l r : ECT) (v : Char) (hl : countOcc l v = 0)
    (h : 0 < countOcc r v) :
    makeAntiOps (ECT.mul l r) v [] = (true, (makeAntiOps r v []).2 ++ [.divLHS]) := by
  rcases hL : makeAntiOps l v [] with ⟨fl, A⟩
  have hspec := makeAntiOps_spec l v
  rw [hL] at hspec
  obtain ⟨_, hemp, hcnt⟩ := hspec
  simp only at hemp hcnt
  have hfl : fl = false := by
    cases fl
    · rfl
    · exact absurd (hcnt.1 rfl) (by omega)
  subst hfl
  have hA : A = [] := hemp rfl
  subst hA
  rcases hR : makeAntiOps r v [] with ⟨fr, B⟩
  have hcnt2 := (makeAntiOps_spec r v).2.2
  rw [hR] at hcnt2
  simp only at hcnt2
  have hfr : fr = true := hcnt2.2 h
  subst hfr
  simp only [makeAntiOps, hL, hR]
  simp

theorem makeAntiOps_div_found_first (a b : ECT) (v : Char) (h : 0 < countOcc a v) :
    makeAntiOps (ECT.div a b) v [] = (true, (makeAntiOps a v []).2 ++ [.mulDenominator]) := by
  rcases hL : makeAntiOps a v [] with ⟨fl, A⟩
  have hcnt := (makeAntiOps_spec a v).2.2
  rw [hL] at hcnt
  simp only at hcnt
  have hfl : fl = true := hcnt.2 h
  subst hfl
  simp only [makeAntiOps, hL]
  simp

theorem makeAntiOps_div_found_second (a b : ECT) (v : Char) (hl : countOcc a v = 0)
    (h : 0 < countOcc b v) :
    makeAntiOps (ECT.div a b) v [] = (true, (makeAntiOps b v []).2 ++ [.mulNumerator]) := by
  rcases hL : makeAntiOps a v [] with ⟨fl, A⟩
  have hspec := makeAntiOps_spec a v
  rw [hL] at hspec
  obtain ⟨_, hemp, hcnt⟩ := hspec
  simp only at hemp hcnt
  have hfl : fl = false := by
    cases fl
    · rfl
    · exact absurd (hcnt.1 rfl) (by omega)
  subst hfl
  have hA : A = [] := hemp rfl
  subst hA
  rcases hR : makeAntiOps b v [] with ⟨fr, B⟩
  have hcnt2 := (makeAntiOps_spec b v).2.2
  rw [hR] at hcnt2
  simp only at hcnt2
  have hfr : fr = true := hcnt2.2 h
  subst hfr
  simp only [makeAntiOps, hL, hR]
  simp

theorem makeAntiOps_pow_found_first (b ex : ECT) (v : Char) (h : 0 < countOcc b v) :
    makeAntiOps (ECT.pow b ex) v [] = (true, (makeAntiOps b v []).2 ++ [.powRHS]) := by
  rcases hL : makeAntiOps b v [] with ⟨fl, A⟩
  have hcnt := (makeAntiOps_spec b v).2.2
  rw [hL] at hcnt
  simp only at hcnt
  have hfl : fl = true := hcnt.2 h
  subst hfl
  simp only [makeAntiOps, hL]
  simp

theorem makeAntiOps_pow_found_second (b ex : ECT) (v : Char) (hl : countOcc b v = 0)
    (h : 0 < countOcc ex v) :
    makeAntiOps (ECT.pow b ex) v [] = (true, (makeAntiOps ex v []).2 ++ [.logLHS]) := by
  rcases hL : makeAntiOps b v [] with ⟨fl, A⟩
  have hspec := makeAntiOps_spec b v
  rw [hL] at hspec
  obtain ⟨_, hemp, hcnt⟩ := hspec
  simp only at hemp hcnt
  have hfl : fl = false := by
    cases fl
    · rfl
    · exact absurd (hcnt.1 rfl) (by omega)
  subst hfl
  have hA : A = [] := hemp rfl
  subst hA
  rcases hR : makeAntiOps ex v [] with ⟨fr, B⟩
  have hcnt2 := (makeAntiOps_spec ex v).2.2
  rw [hR] at hcnt2
  simp only at hcnt2
  have hfr : fr = true := hcnt2.2 h
  subst hfr
  simp only [makeAntiOps, hL, hR]
  simp

theorem makeAntiOps_log_found_first (b a : ECT) (v : Char) (h : 0 < countOcc b v) :
    makeAntiOps (ECT.log b a) v [] = (true, (makeAntiOps b v []).2 ++ [.logRHS]) := by
  rcases hL : makeAntiOps b v [] with ⟨fl, A⟩
  have hcnt := (makeAntiOps_spec b v).2.2
  rw [hL] at hcnt
  simp only at hcnt
  have hfl : fl = true := hcnt.2 h
  subst hfl
  simp only [makeAntiOps, hL]
  simp

theorem makeAntiOps_log_found_second (b a : ECT) (v : Char) (hl : countOcc b v = 0)
    (h : 0 < countOcc a v) :
    makeAntiOps (ECT.log b a) v [] = (true, (makeAntiOps a v []).2 ++ [.powLHS]) := by
  rcases hL : makeAntiOps b v [] with ⟨fl, A⟩
  have hspec := makeAntiOps_spec b v
  rw [hL] at hspec
  obtain ⟨_, hemp, hcnt⟩ := hspec
  simp only at hemp hcnt
  have hfl : fl = false := by
    cases fl
    · rfl
    · exact absurd (hcnt.1 rfl) (by omega)
  subst hfl
  have hA : A = [] := hemp rfl
  subst hA
  rcases hR : makeAntiOps a v [] with ⟨fr, B⟩
  have hcnt2 := (makeAntiOps_spec a v).2.2
  rw [hR] at hcnt2
  simp only at hcnt2
  have hfr : fr = true := hcnt2.2 h
  subst hfr
  simp only [makeAntiOps, hL, hR]
  simp

theorem makeAntiOps_minus_found (w : ECT) (v : Char) (h : 0 < countOcc w v) :
    makeAntiOps (ECT.minus w) v [] = (true, (makeAntiOps w v []).2 ++ [.minusOp]) := by
  rcases hW : makeAntiOps w v [] with ⟨f, A⟩
  have hcnt := (makeAntiOps_spec w v).2.2
  rw [hW] at hcnt
  simp only at hcnt
  have hf : f = true := hcnt.2 h
  subst hf
  simp only [makeAntiOps, hW]
  simp


theorem replay_spec : ∀ (e : ECT) (v : Char), 0 < countOcc e v →
    ∀ r0 : ECT,
      (hitsLogBase e v = false →
        ∃ res, replayOps ((makeAntiOps e v []).2).reverse e r0 = .ok (.var v, res)) ∧
      (hitsLogBase e v = true →
        replayOps ((makeAntiOps e v []).2).reverse e r0 = .error .internalError) := by
  intro e v
  induction e with
  | const i =>
      intro hc r0
      exact absurd hc (by simp [countOcc])
  | var i =>
      intro hc r0
      have hi : i = v := by
        by_contra hne
        simp [countOcc, hne] at hc
      subst hi
      refine ⟨fun _ => ⟨r0, by simp [makeAntiOps, replayOps]⟩, fun hcontra => ?_⟩
      simp [hitsLogBase] at hcontra
  | add l r ihl ihr =>
      intro hc r0
      by_cases hcl : 0 < countOcc l v
      · have hops := makeAntiOps_add_found_first l r v hcl
        have hlb : hitsLogBase (ECT.add l r) v = hitsLogBase l v := by
          simp [hitsLogBase, hcl]
        rw [hops, hlb]
        simp only [List.reverse_append, List.reverse_cons, List.reverse_nil,
          List.nil_append, List.singleton_append, replayOps]
        exact ihl hcl (.sub r0 r)
      · have hcl0 : countOcc l v = 0 := by omega
        have hcr : 0 < countOcc r v := by
          simp only [countOcc] at hc
          omega
        have hops := makeAntiOps_add_found_second l r v hcl0 hcr
        have hlb : hitsLogBase (ECT.add l r) v = hitsLogBase r v := by
          simp [hitsLogBase, hcl]
        rw [hops, hlb]
        simp only [List.reverse_append, List.reverse_cons, List.reverse_nil,
          List.nil_append, List.singleton_append, replayOps]
        exact ihr hcr (.sub r0 l)
  | sub l r ihl ihr =>
      intro hc r0
      by_cases hcl : 0 < countOcc l v
      · have hops := makeAntiOps_sub_found_first l r v hcl
        have hlb : hitsLogBase (ECT.sub l r) v = hitsLogBase l v := by
          simp [hitsLogBase, hcl]
        rw [hops, hlb]
        simp only [List.reverse_append, List.reverse_cons, List.reverse_nil,
          List.nil_append, List.singleton_append, replayOps]
        exact ihl hcl (.add r0 r)
      · have hcl0 : countOcc l v = 0 := by omega
        have hcr : 0 < countOcc r v := by
          simp only [countOcc] at hc
          omega
        have hops := makeAntiOps_sub_found_second l r v hcl0 hcr
        have hlb : hitsLogBase (ECT.sub l r) v = hitsLogBase r v := by
          simp [hitsLogBase, hcl]
        rw [hops, hlb]
        simp only [List.reverse_append, List.reverse_cons, List.reverse_nil,
          List.nil_append, List.singleton_append, replayOps]
        exact ihr hcr (.add r0 (.minus l))
  | mul l r ihl ihr =>
      intro hc r0
      by_cases hcl : 0 < countOcc l v
      · have hops := makeAntiOps_mul_found_first l r v hcl
        have hlb : hitsLogBase (ECT.mul l r) v = hitsLogBase l v := by
          simp [hitsLogBase, hcl]
        rw [hops, hlb]
        simp only [List.reverse_append, List.reverse_cons, List.reverse_nil,
          List.nil_append, List.singleton_append, replayOps]
        exact ihl hcl (.div r0 r)
      · have hcl0 : countOcc l v = 0 := by omega
        have hcr : 0 < countOcc r v := by
          simp only [countOcc] at hc
          omega
        have hops := makeAntiOps_mul_found_second l r v hcl0 hcr
        have hlb : hitsLogBase (ECT.mul l r) v = hitsLogBase r v := by
          simp [hitsLogBase, hcl]
        rw [hops, hlb]
        simp only [List.reverse_append, List.reverse_cons, List.reverse_nil,
          List.nil_append, List.singleton_append, replayOps]
        exact ihr hcr (.div r0 l)
  | div a b ihl ihr =>
      intro hc r0
      by_cases hcl : 0 < countOcc a v
      · have hops := makeAntiOps_div_found_first a b v hcl
        have hlb : hitsLogBase (ECT.div a b) v = hitsLogBase a v := by
          simp [hitsLogBase, hcl]
        rw [hops, hlb]
        simp only [List.reverse_append, List.reverse_cons, List.reverse_nil,
          List.nil_append, List.singleton_append, replayOps]
        exact ihl hcl (.mul r0 b)
      · have hcl0 : countOcc a v = 0 := by omega
        have hcr : 0 < countOcc b v := by
          simp only [countOcc] at hc
          omega
        have hops := makeAntiOps_div_found_second a b v hcl0 hcr
        have hlb : hitsLogBase (ECT.div a b) v = hitsLogBase b v := by
          simp [hitsLogBase, hcl]
        rw [hops, hlb]
        simp only [List.reverse_append, List.reverse_cons, List.reverse_nil,
          List.nil_append, List.singleton_append, replayOps]
        exact ihr hcr (.div a r0)
  | pow b ex ihl ihr =>
      intro hc r0
      by_cases hcl : 0 < countOcc b v
      · have hops := makeAntiOps_pow_found_first b ex v hcl
        have hlb : hitsLogBase (ECT.pow b ex) v = hitsLogBase b v := by
          simp [hitsLogBase, hcl]
        rw [hops, hlb]
        simp only [List.reverse_append, List.reverse_cons, List.reverse_nil,
          List.nil_append, List.singleton_append, replayOps]
        exact ihl hcl (.pow r0 (.div (.const (.int 1)) ex))
      · have hcl0 : countOcc b v = 0 := by omega
        have hcr : 0 < countOcc ex v := by
          simp only [countOcc] at hc
          omega
        have hops := makeAntiOps_pow_found_second b ex v hcl0 hcr
        have hlb : hitsLogBase (ECT.pow b ex) v = hitsLogBase ex v := by
          simp [hitsLogBase, hcl]
        rw [hops, hlb]
        simp only [List.reverse_append, List.reverse_cons, List.reverse_nil,
          List.nil_append, List.singleton_append, replayOps]
        exact ihr hcr (.log b r0)
  | log b a ihb iha =>
      intro hc r0
      by_cases hcb : 0 < countOcc b v
      · have hops := makeAntiOps_log_found_first b a v hcb
        have hlb : hitsLogBase (ECT.log b a) v = true := by
          simp [hitsLogBase, hcb]
        rw [hops, hlb]
        refine ⟨fun hcontra => absurd hcontra (by simp), fun _ => ?_⟩
        simp only [List.reverse_append, List.reverse_cons, List.reverse_nil,
          List.nil_append, List.singleton_append, replayOps]
      · have hcb0 : countOcc b v = 0 := by omega
        have hca : 0 < countOcc a v := by
          simp only [countOcc] at hc
          omega
        have hops := makeAntiOps_log_found_second b a v hcb0 hca
        have hlb : hitsLogBase (ECT.log b a) v = hitsLogBase a v := by
          simp [hitsLogBase, hcb]
        rw [hops, hlb]
        simp only [List.reverse_append, List.reverse_cons, List.reverse_nil,
          List.nil_append, List.singleton_append, replayOps]
        exact iha hca (.pow b r0)
  | minus w ihw =>
      intro hc r0
      have hcw : 0 < countOcc w v := by
        simp only [countOcc] at hc
        exact hc
      have hops := makeAntiOps_minus_found w v hcw
      have hlb : hitsLogBase (ECT.minus w) v = hitsLogBase w v := by
        simp [hitsLogBase]
      rw [hops, hlb]
      simp only [List.reverse_append, List.reverse_cons, List.reverse_nil,
        List.nil_append, List.singleton_append, replayOps]
      exact ihw hcw (.minus r0)

/-- C3 (amended): with `d` the normalized difference `lhs - rhs`
(`simplify(Add(simplify(lhs), Minus(simplify(rhs))))`), `solve` fails
with EquationMismatch exactly when the variable occurs zero times in `d`
and with NotYetImplemented exactly when it occurs more than once; when it
occurs exactly once, the replay either succeeds — in which case `solve`
returns the simplified and ordered result — or, exactly when the unique
occurrence lies in the base of a `Log` node, fails with InternalError
(the plan records `LogRHS` but its replay arm demands a `PowNode`).
(`MathError::NotYetImplemented` is referenced by `solve` but missing from
the `MathError` enum in src/math.rs; it is modelled as intended.) -/
theorem solve_occurrence_classification :
    ∀ (n : Nat) (lhs rhs : ECT) (v : Char) (d : ECT), normalizeF n lhs rhs = .ok d →
      (countOcc d v = 0 → solveF n lhs rhs v = .ok (.error .equationMismatchError)) ∧
      (1 < countOcc d v → solveF n lhs rhs v = .ok (.error .notYetImplemented)) ∧
      (countOcc d v = 1 → hitsLogBase d v = true →
        solveF n lhs rhs v = .ok (.error .internalError)) ∧
      (countOcc d v = 1 → hitsLogBase d v = false →
        ∃ res, replayOps ((makeAntiOps d v []).2).reverse d (.const (.int 0)) =
            .ok (.var v, res) ∧
          solveF n lhs rhs v = (do
            let s ← simplifyF n res
            match orderE s with
            | none => .error .panicked
            | some t => .ok (.ok t))) := by
  intro n lhs rhs v d h
  have hsolve : solveF n lhs rhs v =
      (if 1 < countOcc d v then pure (.error .notYetImplemented)
       else if countOcc d v = 0 then pure (.error .equationMismatchError)
       else doInverseF n d v) := by
    unfold solveF
    rw [h]
    rfl
  refine ⟨?_, ?_, ?_, ?_⟩
  · intro h0
    rw [hsolve, if_neg (by omega), if_pos h0]
    rfl
  · intro h1
    rw [hsolve, if_pos h1]
    rfl
  · intro h1 hlb
    rw [hsolve, if_neg (by omega), if_neg (by omega)]
    have hrep := ((replay_spec d v (by omega) (.const (.int 0))).2) hlb
    unfold doInverseF
    rw [hrep]
  · intro h1 hlb
    obtain ⟨res, hrep⟩ := ((replay_spec d v (by omega) (.const (.int 0))).1) hlb
    refine ⟨res, hrep, ?_⟩
    rw [hsolve, if_neg (by omega), if_neg (by omega)]
    unfold doInverseF
    rw [hrep]

/-- Witness for C3's amended theorem on the concrete equation `3 = x*2`. -/
theorem solve_occurrence_classification_witness :
    ∃ res, replayOps ((makeAntiOps
          (ECT.add (.const (.int 3)) (.mul (.const (.int (-2))) (.var 'x'))) 'x' []).2).reverse
        (ECT.add (.const (.int 3)) (.mul (.const (.int (-2))) (.var 'x')))
        (.const (.int 0)) =
      .ok (.var 'x', res) ∧
    solveF 60 (.const (.int 3)) (.mul (.var 'x') (.const (.int 2))) 'x' = (do
      let s ← simplifyF 60 res
      match orderE s with
      | none => .error .panicked
      | some t => .ok (.ok t)) :=
  (solve_occurrence_classification 60 (.const (.int 3))
      (.mul (.var 'x') (.const (.int 2))) 'x'
      (ECT.add (.const (.int 3)) (.mul (.const (.int (-2))) (.var 'x')))
      (by rfl)).2.2.2 rfl rfl

end MathEngine
